import Mathlib

/-!
Verification of the `routines` package: a hierarchical concurrency-lifecycle
primitive (a tree of coordination nodes with a one-shot cancellation channel,
an own-task WaitGroup and a children WaitGroup per node) plus a `Service`
start/stop state machine built on top of one such node.

The embedding mirrors the Go source:
* a node (`*routines`) holds `doneCh` (modelled by the Bool `doneClosed`),
  `waitgroup` (modelled by the counter `own`), `children` (the counter
  `children`) and a `parent` pointer (`Option Nat`, an index into the node
  list; a `none` handle is a nil pointer);
* running goroutines launched by `Go` are recorded in `tasks`; the internal
  propagation goroutine launched by `Child` is recorded in `props`;
* `Stop` models `close(doneCh)` guarded by `defer func() { recover() }()`;
* `Wait` is `children.Wait(); waitgroup.Wait()`, modelled as a two-phase
  program (`WaitPC`/`waitStep`/`WaitExec`) plus the return condition
  `waitCanReturn`;
* the propagation goroutine's select race is the step relation `PStep`.
-/

namespace Routines

/-- State of one `*routines` value: the `doneCh` channel (closed flag), the
`waitgroup` counter, the `children` counter, and the `parent` pointer. -/
structure NodeState where
  doneClosed : Bool
  own : Nat
  children : Nat
  parent : Option Nat
deriving DecidableEq, Repr

/-- A running goroutine launched by `Go`, attributed to the node it was
launched on. -/
structure Task where
  tid : Nat
  node : Nat
deriving DecidableEq, Repr

/-- The internal propagation goroutine launched by `Child`: it races
`parent.Done()` against `child.Done()` and forwards a stop downward. -/
structure PropTask where
  pid : Nat
  parent : Nat
  child : Nat
deriving DecidableEq, Repr

/-- Whole-system state: all allocated nodes (index = identity), the running
user tasks, the pending propagation tasks, and a fresh-id counter. -/
structure Sys where
  nodes : List NodeState
  tasks : List Task
  props : List PropTask
  nextTid : Nat
deriving DecidableEq, Repr

/-- Apply `f` to the element at index `i`, if present. -/
def modifyAt {α : Type} : List α → Nat → (α → α) → List α
  | [], _, _ => []
  | x :: xs, 0, f => f x :: xs
  | x :: xs, n + 1, f => x :: modifyAt xs n f

/-- Look up node `i`. -/
def Sys.node? (s : Sys) (i : Nat) : Option NodeState := s.nodes.get? i

/-- Update node `i` in place. -/
def Sys.modifyNode (s : Sys) (i : Nat) (f : NodeState → NodeState) : Sys :=
  { s with nodes := modifyAt s.nodes i f }

/-- Value of the `waitgroup` counter of node `i`. -/
def ownOf (s : Sys) (i : Nat) : Nat := ((s.node? i).map NodeState.own).getD 0

/-- Value of the `children` counter of node `i`. -/
def childrenOf (s : Sys) (i : Nat) : Nat :=
  ((s.node? i).map NodeState.children).getD 0

/-- Whether `doneCh` of node `i` has been closed. -/
def doneOf (s : Sys) (i : Nat) : Bool :=
  ((s.node? i).map NodeState.doneClosed).getD false

/-- The `parent` pointer of node `i`. -/
def parentOf (s : Sys) (i : Nat) : Option Nat :=
  ((s.node? i).map NodeState.parent).getD none

/-- `NewRoutines()`: allocate a node with an open channel, zero counters and
no parent; returns the new node's id. -/
def NewRoutines (s : Sys) : Sys × Nat :=
  ({ s with nodes := s.nodes ++ [⟨false, 0, 0, none⟩] }, s.nodes.length)

/-- `(me *routines).childrenUp()`: nil-pointer-safe increment of the
`children` WaitGroup. -/
def childrenUp (s : Sys) : Option Nat → Sys
  | none => s
  | some i => s.modifyNode i fun st => { st with children := st.children + 1 }

/-- `(me *routines).childrenDown()`: nil-pointer-safe decrement of the
`children` WaitGroup. -/
def childrenDown (s : Sys) : Option Nat → Sys
  | none => s
  | some i => s.modifyNode i fun st => { st with children := st.children - 1 }

/-- `Done()`: a nil receiver yields the nil channel (`none`); otherwise the
node's `doneCh`, identified with the node id. -/
def Done : Option Nat → Option Nat
  | none => none
  | some i => some i

/-- Whether receiving from the given channel handle is ready: the nil channel
is never ready; a node's `doneCh` is ready exactly when it has been closed. -/
def chanClosed (s : Sys) : Option Nat → Bool
  | none => false
  | some i => doneOf s i

/-- The counter bookkeeping performed by `Go` before scheduling `fn`:
`me.waitgroup.Add(1)` then `me.parent.childrenUp()`. -/
def goEnter (s : Sys) : Option Nat → Sys
  | none => s
  | some i =>
    childrenUp (s.modifyNode i fun st => { st with own := st.own + 1 })
      (parentOf s i)

/-- The deferred bookkeeping that runs when a goroutine launched by `Go`
returns: defers run last-in-first-out, so `me.parent.childrenDown()` runs
first, then `me.waitgroup.Done()`. -/
def goExit (s : Sys) : Option Nat → Sys
  | none => s
  | some i =>
    (childrenDown s (parentOf s i)).modifyNode i
      fun st => { st with own := st.own - 1 }

/-- `Go(fn)`: a nil receiver is a no-op; otherwise perform the counter
bookkeeping of `goEnter` and schedule the goroutine (recorded as a running
`Task` with a fresh id). -/
def Go (s : Sys) : Option Nat → Sys
  | none => s
  | some i =>
    let s1 := goEnter s (some i)
    { s1 with tasks := ⟨s.nextTid, i⟩ :: s1.tasks, nextTid := s.nextTid + 1 }

/-- Completion of the running task with id `t` (however its `fn` returned):
the goroutine's deferred `goExit` bookkeeping runs and the task is removed. -/
def finishTask (s : Sys) (t : Nat) : Sys :=
  match s.tasks.find? (fun tk => tk.tid == t) with
  | none => s
  | some tk =>
    let s1 := goExit s (some tk.node)
    { s1 with tasks := s1.tasks.eraseP (fun tk2 => tk2.tid == t) }

/-- `Child()`: a nil receiver yields nil; otherwise allocate a fresh node via
`NewRoutines`, set its parent to the receiver, and launch the propagation
goroutine on the child via `rv.Go(fn)` (counter bookkeeping by `goEnter`,
the pending goroutine recorded as a `PropTask`). -/
def Child (s : Sys) : Option Nat → Sys × Option Nat
  | none => (s, none)
  | some i =>
    let sc := NewRoutines s
    let s2 := sc.1.modifyNode sc.2 fun st => { st with parent := some i }
    let s3 := goEnter s2 (some sc.2)
    ({ s3 with props := ⟨s.nextTid, i, sc.2⟩ :: s3.props,
               nextTid := s.nextTid + 1 }, some sc.2)

/-- `close(me.doneCh)` without the surrounding `recover`: closing an already
closed channel panics (`Except.error`). -/
def closeRaw (s : Sys) (i : Nat) : Except Unit Sys :=
  match s.node? i with
  | none => Except.ok s
  | some st =>
    if st.doneClosed then Except.error ()
    else Except.ok (s.modifyNode i fun st2 => { st2 with doneClosed := true })

/-- `Stop()`: a nil receiver is a no-op; otherwise close `doneCh`, absorbing
the double-close panic with `defer func() { recover() }()` (on panic the
state is left as it was). -/
def Stop (s : Sys) : Option Nat → Sys
  | none => s
  | some i =>
    match closeRaw s i with
    | Except.ok s2 => s2
    | Except.error _ => s

/-- `Stop` iterated `n` times on the same handle. -/
def stopN : Nat → Sys → Option Nat → Sys
  | 0, s, _ => s
  | n + 1, s, h => stopN n (Stop s h) h

/-- `me.children.Wait()` can proceed: the `children` counter is zero. -/
def childrenZero (s : Sys) (i : Nat) : Bool := childrenOf s i == 0

/-- `me.waitgroup.Wait()` can proceed: the `waitgroup` counter is zero. -/
def ownZero (s : Sys) (i : Nat) : Bool := ownOf s i == 0

/-- `Wait()` is not blocked in either phase: a nil receiver returns
immediately; otherwise both counters are zero. -/
def waitCanReturn (s : Sys) : Option Nat → Bool
  | none => true
  | some i => childrenZero s i && ownZero s i

/-- Program counter of a caller inside `Wait()` on a non-nil node: before
`children.Wait()`, before `waitgroup.Wait()`, or returned. -/
inductive WaitPC where
  | atChildren
  | atOwn
  | finished
deriving DecidableEq, Repr

/-- One attempted step of `Wait()` on node `i` against system state `s`:
each phase proceeds only when its counter is zero. -/
def waitStep (s : Sys) (i : Nat) : WaitPC → Option WaitPC
  | WaitPC.atChildren => if childrenZero s i then some WaitPC.atOwn else none
  | WaitPC.atOwn => if ownZero s i then some WaitPC.finished else none
  | WaitPC.finished => none

/-- Executions of `Wait()` on node `i` against an environment trace `env`
(the system state at each instant): the caller starts before
`children.Wait()`, may be unscheduled (`stutter`), and advances only when
`waitStep` allows it. -/
inductive WaitExec (env : Nat → Sys) (i : Nat) : Nat → WaitPC → Prop
  | init : WaitExec env i 0 WaitPC.atChildren
  | stutter {t pc} : WaitExec env i t pc → WaitExec env i (t + 1) pc
  | step {t pc pc2} : WaitExec env i t pc → waitStep (env t) i pc = some pc2 →
      WaitExec env i (t + 1) pc2

/-- The propagation goroutine `p` finishes: its deferred `goExit` bookkeeping
runs on the child it was launched on, and it is removed from the pending
set. -/
def propExit (s : Sys) (p : PropTask) : Sys :=
  let s1 := goExit s (some p.child)
  { s1 with props := s1.props.eraseP (fun q => q.pid == p.pid) }

/-- One step of a pending propagation goroutine's select race:
`forward` fires when `parent.Done()` is ready — it calls `child.Stop()` and
exits; `selfExit` fires when `child.Done()` is ready — it exits without
acting further. -/
inductive PStep : Sys → Sys → Prop
  | forward {s : Sys} {p : PropTask} : p ∈ s.props →
      chanClosed s (Done (some p.parent)) = true →
      PStep s (propExit (Stop s (some p.child)) p)
  | selfExit {s : Sys} {p : PropTask} : p ∈ s.props →
      chanClosed s (Done (some p.child)) = true →
      PStep s (propExit s p)

/-- Zero or more propagation steps. -/
inductive PSteps : Sys → Sys → Prop
  | refl (s : Sys) : PSteps s s
  | tail {s t u : Sys} : PSteps s t → PStep t u → PSteps s u

/-- Error conditions of the `errors` package used by the Service layer,
identified by kind; `other` stands for an arbitrary error produced by a
user start routine. -/
inductive SvcError where
  | nilReceiver
  | nilArgument (arg : String)
  | alreadyStarted
  | other (msg : String)
deriving DecidableEq, Repr

/-- Observable calls `service.Start`/`service.Stop` make on coordination
nodes, in program order: child creation, invocation of the user start
routine, `Stop()` on a node, `Wait()` on a node. -/
inductive Ev where
  | evChild (c : Option Nat)
  | evRoutine (c : Option Nat)
  | evStop (c : Option Nat)
  | evWait (c : Option Nat)
deriving DecidableEq, Repr

/-- Shape of a user start routine: it receives the system and the candidate
child node, may transform the system (launch tasks), and may fail. -/
def StartFn : Type := Sys → Option Nat → Sys × Option SvcError

/-- The `service` struct: the start routine and the active child node
(`none` when Idle). The mutex only serializes `Start`/`Stop`, which the
sequential embedding renders implicitly. -/
structure Svc where
  start : StartFn
  routines : Option Nat

/-- `NewService(start)`: a nil start routine is replaced by a stub that
unconditionally returns a `NilArgument("start")` error. -/
def NewService (f : Option StartFn) : Svc :=
  { start :=
      match f with
      | none => fun s _ => (s, some (SvcError.nilArgument "start"))
      | some g => g
    routines := none }

/-- `(me *service).Start(routines)`: nil receiver fails with NilReceiver;
an active node fails with AlreadyStarted; otherwise a candidate child of
the argument is created and the start routine invoked on it — on failure
the deferred cleanup stops and waits the candidate before returning the
error, on success the candidate becomes the active node. Returns the
updated receiver, system, error, and the node-call log. -/
def Svc.Start (me : Option Svc) (s : Sys) (rtns : Option Nat) :
    Option Svc × Sys × Option SvcError × List Ev :=
  match me with
  | none => (none, s, some SvcError.nilReceiver, [])
  | some svc =>
    match svc.routines with
    | some _ => (some svc, s, some SvcError.alreadyStarted, [])
    | none =>
      let sc := Child s rtns
      let res := svc.start sc.1 sc.2
      match res.2 with
      | none =>
        (some { svc with routines := sc.2 }, res.1, none,
          [Ev.evChild sc.2, Ev.evRoutine sc.2])
      | some e =>
        (some svc, Routines.Stop res.1 sc.2, some e,
          [Ev.evChild sc.2, Ev.evRoutine sc.2, Ev.evStop sc.2, Ev.evWait sc.2])

/-- `(me *service).Stop()`: nil receiver is a no-op; when Idle, a no-op;
when Running, stops the active node, waits on it, and clears it. -/
def Svc.Stop (me : Option Svc) (s : Sys) : Option Svc × Sys × List Ev :=
  match me with
  | none => (none, s, [])
  | some svc =>
    match svc.routines with
    | none => (some svc, s, [])
    | some r =>
      (some { svc with routines := none }, Routines.Stop s (some r),
        [Ev.evStop (some r), Ev.evWait (some r)])

/-! Concrete scenario: a root (node 0), a child of the root (node 1), a
grandchild (node 2), one user task launched on the grandchild, then the
root is stopped and both propagation tasks forward the stop downward. -/

/-- The empty system. -/
def sys0 : Sys := ⟨[], [], [], 0⟩

/-- One root node (id 0). -/
def sysR : Sys := (NewRoutines sys0).1

/-- Root plus a child (id 1) created by `Child` on the root. -/
def sysRC : Sys := (Child sysR (some 0)).1

/-- Root, child, and a grandchild (id 2) created by `Child` on the child. -/
def sysRCG : Sys := (Child sysRC (some 1)).1

/-- A user task (tid 2) launched by `Go` on the grandchild. -/
def sysTask : Sys := Go sysRCG (some 2)

/-- `Stop` called on the root. -/
def sysStopR : Sys := Stop sysTask (some 0)

/-- The root-to-child propagation task fires: it stops node 1 and exits. -/
def sysFwd1 : Sys := propExit (Stop sysStopR (some 1)) ⟨0, 0, 1⟩

/-- The child-to-grandchild propagation task fires: it stops node 2 and
exits; the user task on node 2 is still running. -/
def sysFwd2 : Sys := propExit (Stop sysFwd1 (some 2)) ⟨1, 1, 2⟩

/-- Two-node variant for propagation claims: `Stop` called on the root of
`sysRC`. -/
def sysRCStopR : Sys := Stop sysRC (some 0)

/-- The propagation task of `sysRC` forwards the root's stop to node 1. -/
def sysRCFwd : Sys := propExit (Stop sysRCStopR (some 1)) ⟨0, 0, 1⟩

/-- A service whose start routine succeeds without doing anything, already
holding an active node — i.e. a Running service. -/
def svcRunning : Svc := { start := fun s _ => (s, none), routines := some 0 }

/-- An idle service whose start routine always fails with a user error. -/
def svcFailing : Svc :=
  { start := fun s _ => (s, some (SvcError.other "boom")), routines := none }

/-- Number of running user tasks launched on node `i` (each holds one unit
of node `i`'s `waitgroup`). -/
def tasksOn (s : Sys) (i : Nat) : Nat :=
  s.tasks.countP (fun t => t.node == i)

/-- Number of pending propagation goroutines launched on node `i` (each was
launched by `Child` via `Go` on `i`, so each holds one unit of node `i`'s
`waitgroup`). -/
def propsOn (s : Sys) (i : Nat) : Nat :=
  s.props.countP (fun p => p.child == i)

/-- Number of running user tasks launched on a direct child of node `i`
(each holds one unit of node `i`'s `children` WaitGroup). -/
def tasksUnder (s : Sys) (i : Nat) : Nat :=
  s.tasks.countP (fun t => parentOf s t.node == some i)

/-- Number of pending propagation goroutines launched on a direct child of
node `i` (each holds one unit of node `i`'s `children` WaitGroup). -/
def propsUnder (s : Sys) (i : Nat) : Nat :=
  s.props.countP (fun p => parentOf s p.child == some i)

/-- Well-formedness of a system state: every running goroutine references an
allocated node, pending propagation ids are fresh and distinct, parent
pointers are valid, and — the key invariant — each node's two WaitGroup
counters equal the number of running goroutines currently holding them,
exactly as `sync.WaitGroup` counts in the source. -/
structure WF (s : Sys) : Prop where
  taskNode : ∀ t ∈ s.tasks, t.node < s.nodes.length
  propChild : ∀ p ∈ s.props, p.child < s.nodes.length
  propPid : ∀ p ∈ s.props, p.pid < s.nextTid
  pidUnique : s.props.Pairwise (fun a b => a.pid ≠ b.pid)
  parentValid : ∀ x, x < s.nodes.length → ∀ p, parentOf s x = some p →
    p < s.nodes.length
  ownCount : ∀ i, i < s.nodes.length → ownOf s i = tasksOn s i + propsOn s i
  childrenCount : ∀ i, i < s.nodes.length →
    childrenOf s i = tasksUnder s i + propsUnder s i

/-- States reachable from the empty system by the package's operations: node
creation, child creation and task launch on allocated nodes (a non-nil
`*routines` always points at an allocated node), task completion, `Stop`,
and steps of the propagation goroutines. Nil-handle calls are identities
and need no constructor. -/
inductive Reachable : Sys → Prop
  | init : Reachable sys0
  | new {s : Sys} : Reachable s → Reachable (NewRoutines s).1
  | childStep {s : Sys} {i : Nat} : Reachable s → i < s.nodes.length →
      Reachable (Child s (some i)).1
  | goStep {s : Sys} {i : Nat} : Reachable s → i < s.nodes.length →
      Reachable (Go s (some i))
  | finishStep {s : Sys} {t : Nat} : Reachable s → Reachable (finishTask s t)
  | stopStep {s : Sys} {h : Option Nat} : Reachable s → Reachable (Stop s h)
  | propStep {s u : Sys} : Reachable s → PStep s u → Reachable u

/-- The intermediate state of `Child` on node `i`: the fresh node has been
allocated by `NewRoutines` and its parent set to `i`, before the
propagation goroutine is launched via `Go`. -/
def childMid (s : Sys) (i : Nat) : Sys :=
  ((NewRoutines s).1).modifyNode s.nodes.length
    (fun st => { st with parent := some i })

/-! Helper lemmas about `modifyAt`, node accessors, and the operations. -/

theorem length_modifyAt {α : Type} (l : List α) (i : Nat) (f : α → α) :
    (modifyAt l i f).length = l.length := by
  induction l generalizing i with
  | nil => rfl
  | cons x xs ih =>
    cases i with
    | zero => rfl
    | succ n => simp only [modifyAt, List.length_cons, ih]

theorem get?_modifyAt_self {α : Type} (l : List α) (i : Nat) (f : α → α) :
    (modifyAt l i f).get? i = (l.get? i).map f := by
  induction l generalizing i with
  | nil => rfl
  | cons x xs ih =>
    cases i with
    | zero => rfl
    | succ n => simpa [modifyAt] using ih n

theorem get?_modifyAt_ne {α : Type} (l : List α) {i j : Nat} (f : α → α) (h : i ≠ j) :
    (modifyAt l i f).get? j = l.get? j := by
  induction l generalizing i j with
  | nil => rfl
  | cons x xs ih =>
    cases i with
    | zero =>
      cases j with
      | zero => exact absurd rfl h
      | succ m => rfl
    | succ n =>
      cases j with
      | zero => rfl
      | succ m =>
        simpa [modifyAt] using ih (i := n) (j := m) (fun hnm => h (by rw [hnm]))

theorem node?_modifyNode_self (s : Sys) (i : Nat) (f : NodeState → NodeState) :
    (s.modifyNode i f).node? i = (s.node? i).map f :=
  get?_modifyAt_self s.nodes i f

theorem node?_modifyNode_ne (s : Sys) {i j : Nat} (f : NodeState → NodeState)
    (h : i ≠ j) : (s.modifyNode i f).node? j = s.node? j :=
  get?_modifyAt_ne s.nodes f h

theorem node?_of_lt (s : Sys) {i : Nat} (hi : i < s.nodes.length) :
    ∃ st, s.node? i = some st :=
  ⟨s.nodes.get ⟨i, hi⟩, List.get?_eq_get hi⟩

theorem node?_of_ge (s : Sys) {i : Nat} (hi : s.nodes.length ≤ i) :
    s.node? i = none :=
  List.get?_eq_none.mpr hi

theorem nodes_length_modifyNode (s : Sys) (i : Nat) (f : NodeState → NodeState) :
    (s.modifyNode i f).nodes.length = s.nodes.length :=
  length_modifyAt s.nodes i f

theorem ownOf_modifyNode_pres (s : Sys) (i j : Nat) (f : NodeState → NodeState)
    (hf : ∀ st, (f st).own = st.own) :
    ownOf (s.modifyNode i f) j = ownOf s j := by
  unfold ownOf
  by_cases hij : i = j
  · subst hij
    rw [node?_modifyNode_self]
    cases s.node? i <;> simp [hf]
  · rw [node?_modifyNode_ne s f hij]

theorem childrenOf_modifyNode_pres (s : Sys) (i j : Nat) (f : NodeState → NodeState)
    (hf : ∀ st, (f st).children = st.children) :
    childrenOf (s.modifyNode i f) j = childrenOf s j := by
  unfold childrenOf
  by_cases hij : i = j
  · subst hij
    rw [node?_modifyNode_self]
    cases s.node? i <;> simp [hf]
  · rw [node?_modifyNode_ne s f hij]

theorem doneOf_modifyNode_pres (s : Sys) (i j : Nat) (f : NodeState → NodeState)
    (hf : ∀ st, (f st).doneClosed = st.doneClosed) :
    doneOf (s.modifyNode i f) j = doneOf s j := by
  unfold doneOf
  by_cases hij : i = j
  · subst hij
    rw [node?_modifyNode_self]
    cases s.node? i <;> simp [hf]
  · rw [node?_modifyNode_ne s f hij]

theorem parentOf_modifyNode_pres (s : Sys) (i j : Nat) (f : NodeState → NodeState)
    (hf : ∀ st, (f st).parent = st.parent) :
    parentOf (s.modifyNode i f) j = parentOf s j := by
  unfold parentOf
  by_cases hij : i = j
  · subst hij
    rw [node?_modifyNode_self]
    cases s.node? i <;> simp [hf]
  · rw [node?_modifyNode_ne s f hij]

theorem ownOf_modifyNode_ne (s : Sys) {i j : Nat} (f : NodeState → NodeState)
    (h : i ≠ j) : ownOf (s.modifyNode i f) j = ownOf s j := by
  unfold ownOf; rw [node?_modifyNode_ne s f h]

theorem childrenOf_modifyNode_ne (s : Sys) {i j : Nat} (f : NodeState → NodeState)
    (h : i ≠ j) : childrenOf (s.modifyNode i f) j = childrenOf s j := by
  unfold childrenOf; rw [node?_modifyNode_ne s f h]

theorem ownOf_modifyNode_self (s : Sys) {i : Nat} {st : NodeState}
    (hst : s.node? i = some st) (f : NodeState → NodeState) :
    ownOf (s.modifyNode i f) i = (f st).own := by
  unfold ownOf; rw [node?_modifyNode_self, hst]; rfl

theorem childrenOf_modifyNode_self (s : Sys) {i : Nat} {st : NodeState}
    (hst : s.node? i = some st) (f : NodeState → NodeState) :
    childrenOf (s.modifyNode i f) i = (f st).children := by
  unfold childrenOf; rw [node?_modifyNode_self, hst]; rfl

theorem doneOf_modifyNode_self (s : Sys) {i : Nat} {st : NodeState}
    (hst : s.node? i = some st) (f : NodeState → NodeState) :
    doneOf (s.modifyNode i f) i = (f st).doneClosed := by
  unfold doneOf; rw [node?_modifyNode_self, hst]; rfl

theorem ownOf_eq_of_node? (s : Sys) {i : Nat} {st : NodeState}
    (hst : s.node? i = some st) : ownOf s i = st.own := by
  unfold ownOf; rw [hst]; rfl

theorem childrenOf_eq_of_node? (s : Sys) {i : Nat} {st : NodeState}
    (hst : s.node? i = some st) : childrenOf s i = st.children := by
  unfold childrenOf; rw [hst]; rfl

theorem childrenOf_of_none (s : Sys) {i : Nat} (h : s.node? i = none) :
    childrenOf s i = 0 := by
  unfold childrenOf; rw [h]; rfl

theorem doneOf_eq_of_node? (s : Sys) {i : Nat} {st : NodeState}
    (hst : s.node? i = some st) : doneOf s i = st.doneClosed := by
  unfold doneOf; rw [hst]; rfl

theorem ownOf_childrenUp (s : Sys) (h : Option Nat) (j : Nat) :
    ownOf (childrenUp s h) j = ownOf s j := by
  cases h with
  | none => rfl
  | some p => exact ownOf_modifyNode_pres s p j _ (fun st => rfl)

theorem ownOf_childrenDown (s : Sys) (h : Option Nat) (j : Nat) :
    ownOf (childrenDown s h) j = ownOf s j := by
  cases h with
  | none => rfl
  | some p => exact ownOf_modifyNode_pres s p j _ (fun st => rfl)

theorem doneOf_childrenUp (s : Sys) (h : Option Nat) (j : Nat) :
    doneOf (childrenUp s h) j = doneOf s j := by
  cases h with
  | none => rfl
  | some p => exact doneOf_modifyNode_pres s p j _ (fun st => rfl)

theorem doneOf_childrenDown (s : Sys) (h : Option Nat) (j : Nat) :
    doneOf (childrenDown s h) j = doneOf s j := by
  cases h with
  | none => rfl
  | some p => exact doneOf_modifyNode_pres s p j _ (fun st => rfl)

theorem parentOf_childrenUp (s : Sys) (h : Option Nat) (j : Nat) :
    parentOf (childrenUp s h) j = parentOf s j := by
  cases h with
  | none => rfl
  | some p => exact parentOf_modifyNode_pres s p j _ (fun st => rfl)

theorem parentOf_childrenDown (s : Sys) (h : Option Nat) (j : Nat) :
    parentOf (childrenDown s h) j = parentOf s j := by
  cases h with
  | none => rfl
  | some p => exact parentOf_modifyNode_pres s p j _ (fun st => rfl)

theorem goExit_some_eq (s : Sys) (i : Nat) :
    goExit s (some i)
      = (childrenDown s (parentOf s i)).modifyNode i
          (fun st => { st with own := st.own - 1 }) := rfl

theorem doneOf_goExit (s : Sys) (h : Option Nat) (j : Nat) :
    doneOf (goExit s h) j = doneOf s j := by
  cases h with
  | none => rfl
  | some i =>
    rw [goExit_some_eq,
      doneOf_modifyNode_pres _ i j (fun st => { st with own := st.own - 1 })
        (fun st => rfl),
      doneOf_childrenDown]

theorem parentOf_goExit (s : Sys) (h : Option Nat) (j : Nat) :
    parentOf (goExit s h) j = parentOf s j := by
  cases h with
  | none => rfl
  | some i =>
    rw [goExit_some_eq,
      parentOf_modifyNode_pres _ i j (fun st => { st with own := st.own - 1 })
        (fun st => rfl),
      parentOf_childrenDown]

theorem props_goExit (s : Sys) (h : Option Nat) : (goExit s h).props = s.props := by
  cases h with
  | none => rfl
  | some i =>
    rw [goExit_some_eq]
    cases parentOf s i <;> rfl

theorem tasks_goExit (s : Sys) (h : Option Nat) : (goExit s h).tasks = s.tasks := by
  cases h with
  | none => rfl
  | some i =>
    rw [goExit_some_eq]
    cases parentOf s i <;> rfl

theorem nodes_length_goExit (s : Sys) (h : Option Nat) :
    (goExit s h).nodes.length = s.nodes.length := by
  cases h with
  | none => rfl
  | some i =>
    rw [goExit_some_eq, nodes_length_modifyNode]
    cases parentOf s i with
    | none => rfl
    | some p => exact nodes_length_modifyNode s p _

theorem doneOf_propExit (s : Sys) (p : PropTask) (j : Nat) :
    doneOf (propExit s p) j = doneOf s j := doneOf_goExit s (some p.child) j

theorem nodes_length_propExit (s : Sys) (p : PropTask) :
    (propExit s p).nodes.length = s.nodes.length :=
  nodes_length_goExit s (some p.child)

theorem props_propExit (s : Sys) (p : PropTask) :
    (propExit s p).props = s.props.eraseP (fun q => q.pid == p.pid) := by
  have h1 : (propExit s p).props
      = (goExit s (some p.child)).props.eraseP (fun q => q.pid == p.pid) := rfl
  rw [h1, props_goExit]

theorem closeRaw_none (s : Sys) {i : Nat} (hn : s.node? i = none) :
    closeRaw s i = Except.ok s := by
  unfold closeRaw; rw [hn]

theorem closeRaw_closed (s : Sys) {i : Nat} {st : NodeState}
    (hn : s.node? i = some st) (hd : st.doneClosed = true) :
    closeRaw s i = Except.error () := by
  unfold closeRaw; rw [hn]; simp [hd]

theorem closeRaw_open (s : Sys) {i : Nat} {st : NodeState}
    (hn : s.node? i = some st) (hd : st.doneClosed = false) :
    closeRaw s i
      = Except.ok (s.modifyNode i fun st2 => { st2 with doneClosed := true }) := by
  unfold closeRaw; rw [hn]; simp [hd]

theorem Stop_some_eq (s : Sys) (i : Nat) :
    Stop s (some i)
      = (match closeRaw s i with
          | Except.ok s2 => s2
          | Except.error _ => s) := rfl

/-- `Stop` on a non-nil handle: either the node is absent (no-op), or the
channel was already closed (the double-close panic is recovered, no-op), or
the channel is open and gets closed. -/
theorem Stop_eq (s : Sys) (i : Nat) :
    (s.node? i = none ∧ Stop s (some i) = s)
    ∨ (doneOf s i = true ∧ Stop s (some i) = s)
    ∨ (doneOf s i = false
        ∧ Stop s (some i) = s.modifyNode i fun st => { st with doneClosed := true }) := by
  cases hn : s.node? i with
  | none => exact Or.inl ⟨rfl, by rw [Stop_some_eq, closeRaw_none s hn]⟩

  | some st =>
    by_cases hd : st.doneClosed
    · refine Or.inr (Or.inl ⟨?_, ?_⟩)
      · rw [doneOf_eq_of_node? s hn]; exact hd
      · rw [Stop_some_eq, closeRaw_closed s hn hd]
    · have hd2 : st.doneClosed = false := by simpa using hd
      refine Or.inr (Or.inr ⟨?_, ?_⟩)
      · rw [doneOf_eq_of_node? s hn]; exact hd2
      · rw [Stop_some_eq, closeRaw_open s hn hd2]

theorem props_Stop (s : Sys) (h : Option Nat) : (Stop s h).props = s.props := by
  cases h with
  | none => rfl
  | some i =>
    rcases Stop_eq s i with ⟨_, he⟩ | ⟨_, he⟩ | ⟨_, he⟩ <;> rw [he]
    rfl

theorem tasks_Stop (s : Sys) (h : Option Nat) : (Stop s h).tasks = s.tasks := by
  cases h with
  | none => rfl
  | some i =>
    rcases Stop_eq s i with ⟨_, he⟩ | ⟨_, he⟩ | ⟨_, he⟩ <;> rw [he]
    rfl

theorem nodes_length_Stop (s : Sys) (h : Option Nat) :
    (Stop s h).nodes.length = s.nodes.length := by
  cases h with
  | none => rfl
  | some i =>
    rcases Stop_eq s i with ⟨_, he⟩ | ⟨_, he⟩ | ⟨_, he⟩ <;> rw [he]
    exact nodes_length_modifyNode s i _

theorem doneOf_Stop_self (s : Sys) {i : Nat} {st : NodeState}
    (hst : s.node? i = some st) : doneOf (Stop s (some i)) i = true := by
  rcases Stop_eq s i with ⟨hn, _⟩ | ⟨hd, he⟩ | ⟨_, he⟩
  · rw [hst] at hn; exact absurd hn (by simp)
  · rw [he]; exact hd
  · rw [he, doneOf_modifyNode_self s hst]

theorem doneOf_Stop_ne (s : Sys) {i j : Nat} (hij : i ≠ j) :
    doneOf (Stop s (some i)) j = doneOf s j := by
  rcases Stop_eq s i with ⟨_, he⟩ | ⟨_, he⟩ | ⟨_, he⟩ <;> rw [he]
  unfold doneOf; rw [node?_modifyNode_ne s _ hij]

theorem doneOf_Stop_mono (s : Sys) (h : Option Nat) (j : Nat)
    (hj : doneOf s j = true) : doneOf (Stop s h) j = true := by
  cases h with
  | none => exact hj
  | some i =>
    by_cases hij : i = j
    · subst hij
      cases hn : s.node? i with
      | none => unfold doneOf at hj; rw [hn] at hj; exact absurd hj (by simp)
      | some st => exact doneOf_Stop_self s hn
    · rw [doneOf_Stop_ne s hij]; exact hj

theorem ownOf_Stop (s : Sys) (h : Option Nat) (j : Nat) :
    ownOf (Stop s h) j = ownOf s j := by
  cases h with
  | none => rfl
  | some i =>
    rcases Stop_eq s i with ⟨_, he⟩ | ⟨_, he⟩ | ⟨_, he⟩ <;> rw [he]
    exact ownOf_modifyNode_pres s i j _ (fun st => rfl)

theorem childrenOf_Stop (s : Sys) (h : Option Nat) (j : Nat) :
    childrenOf (Stop s h) j = childrenOf s j := by
  cases h with
  | none => rfl
  | some i =>
    rcases Stop_eq s i with ⟨_, he⟩ | ⟨_, he⟩ | ⟨_, he⟩ <;> rw [he]
    exact childrenOf_modifyNode_pres s i j _ (fun st => rfl)

theorem mem_of_mem_eraseP {α : Type} {a : α} {p : α → Bool} {l : List α}
    (h : a ∈ l.eraseP p) : a ∈ l :=
  (List.eraseP_sublist l).mem h

theorem length_eraseP_lt {α : Type} {a : α} {p : α → Bool} {l : List α}
    (ha : a ∈ l) (hp : p a = true) : (l.eraseP p).length < l.length := by
  rw [List.length_eraseP_of_mem ha hp]
  exact Nat.sub_lt (List.length_pos_of_mem ha) Nat.one_pos

theorem PStep_props_sub {t u : Sys} (h : PStep t u) : ∀ q ∈ u.props, q ∈ t.props := by
  cases h with
  | forward hp hd =>
    intro q hq
    rw [props_propExit, props_Stop] at hq
    exact mem_of_mem_eraseP hq
  | selfExit hp hd =>
    intro q hq
    rw [props_propExit] at hq
    exact mem_of_mem_eraseP hq

theorem PStep_done_mono {t u : Sys} (h : PStep t u) (j : Nat)
    (hj : doneOf t j = true) : doneOf u j = true := by
  cases h with
  | forward hp hd => rw [doneOf_propExit]; exact doneOf_Stop_mono t _ j hj
  | selfExit hp hd => rw [doneOf_propExit]; exact hj

theorem PStep_nodes_length {t u : Sys} (h : PStep t u) :
    u.nodes.length = t.nodes.length := by
  cases h with
  | forward hp hd => rw [nodes_length_propExit, nodes_length_Stop]
  | selfExit hp hd => rw [nodes_length_propExit]

theorem goEnter_some_eq (s : Sys) (i : Nat) :
    goEnter s (some i)
      = childrenUp (s.modifyNode i fun st => { st with own := st.own + 1 })
          (parentOf s i) := rfl

theorem childrenUp_some_eq (s : Sys) (p : Nat) :
    childrenUp s (some p)
      = s.modifyNode p (fun st => { st with children := st.children + 1 }) := rfl

theorem childrenDown_some_eq (s : Sys) (p : Nat) :
    childrenDown s (some p)
      = s.modifyNode p (fun st => { st with children := st.children - 1 }) := rfl

theorem childrenOf_childrenUp_ne (s : Sys) {p j : Nat} (hpj : p ≠ j) :
    childrenOf (childrenUp s (some p)) j = childrenOf s j := by
  rw [childrenUp_some_eq]; exact childrenOf_modifyNode_ne s _ hpj

theorem ownOf_goEnter_self (s : Sys) {i : Nat} (hi : i < s.nodes.length) :
    ownOf (goEnter s (some i)) i = ownOf s i + 1 := by
  obtain ⟨st, hst⟩ := node?_of_lt s hi
  rw [goEnter_some_eq, ownOf_childrenUp,
    ownOf_modifyNode_self s hst (fun st => { st with own := st.own + 1 }),
    ownOf_eq_of_node? s hst]

theorem ownOf_goEnter_ne (s : Sys) {i j : Nat} (hij : j ≠ i) :
    ownOf (goEnter s (some i)) j = ownOf s j := by
  rw [goEnter_some_eq, ownOf_childrenUp,
    ownOf_modifyNode_ne s _ (fun he => hij he.symm)]

theorem childrenOf_goEnter_parent (s : Sys) {i p : Nat}
    (hp : parentOf s i = some p) (hplen : p < s.nodes.length) :
    childrenOf (goEnter s (some i)) p = childrenOf s p + 1 := by
  rw [goEnter_some_eq, hp, childrenUp_some_eq]
  have hlen : p < (s.modifyNode i fun st => { st with own := st.own + 1 }).nodes.length := by
    rw [nodes_length_modifyNode]; exact hplen
  obtain ⟨st, hst⟩ := node?_of_lt _ hlen
  rw [childrenOf_modifyNode_self _ hst (fun st => { st with children := st.children + 1 })]
  have h2 : childrenOf (s.modifyNode i fun st => { st with own := st.own + 1 }) p
      = childrenOf s p := childrenOf_modifyNode_pres s i p _ (fun st => rfl)
  rw [childrenOf_eq_of_node? _ hst] at h2
  rw [show (({ st with children := st.children + 1 } : NodeState)).children
      = st.children + 1 from rfl, h2]

theorem childrenOf_goEnter_notparent (s : Sys) {i q : Nat}
    (hq : parentOf s i ≠ some q) :
    childrenOf (goEnter s (some i)) q = childrenOf s q := by
  rw [goEnter_some_eq]
  cases hp : parentOf s i with
  | none => exact childrenOf_modifyNode_pres s i q _ (fun st => rfl)
  | some p =>
    have hpq : p ≠ q := fun he => hq (by rw [hp, he])
    rw [childrenUp_some_eq, childrenOf_modifyNode_ne _ _ hpq,
      childrenOf_modifyNode_pres s i q (fun st => { st with own := st.own + 1 })
        (fun st => rfl)]

theorem doneOf_goEnter (s : Sys) (h : Option Nat) (j : Nat) :
    doneOf (goEnter s h) j = doneOf s j := by
  cases h with
  | none => rfl
  | some i =>
    rw [goEnter_some_eq, doneOf_childrenUp,
      doneOf_modifyNode_pres s i j (fun st => { st with own := st.own + 1 })
        (fun st => rfl)]

theorem parentOf_goEnter (s : Sys) (h : Option Nat) (j : Nat) :
    parentOf (goEnter s h) j = parentOf s j := by
  cases h with
  | none => rfl
  | some i =>
    rw [goEnter_some_eq, parentOf_childrenUp,
      parentOf_modifyNode_pres s i j (fun st => { st with own := st.own + 1 })
        (fun st => rfl)]

theorem tasks_goEnter (s : Sys) (h : Option Nat) : (goEnter s h).tasks = s.tasks := by
  cases h with
  | none => rfl
  | some i =>
    rw [goEnter_some_eq]
    cases parentOf s i <;> rfl

theorem nodes_length_goEnter (s : Sys) (h : Option Nat) :
    (goEnter s h).nodes.length = s.nodes.length := by
  cases h with
  | none => rfl
  | some i =>
    rw [goEnter_some_eq]
    cases parentOf s i with
    | none => exact nodes_length_modifyNode s i _
    | some p =>
      rw [childrenUp_some_eq, nodes_length_modifyNode, nodes_length_modifyNode]

theorem nodes_Go_some (s : Sys) (i : Nat) :
    (Go s (some i)).nodes = (goEnter s (some i)).nodes := rfl

theorem tasks_Go_some (s : Sys) (i : Nat) :
    (Go s (some i)).tasks = ⟨s.nextTid, i⟩ :: s.tasks := by
  have h1 : (Go s (some i)).tasks = ⟨s.nextTid, i⟩ :: (goEnter s (some i)).tasks := rfl
  rw [h1, tasks_goEnter]

theorem ownOf_of_nodes_eq {s1 s2 : Sys} (h : s1.nodes = s2.nodes) (j : Nat) :
    ownOf s1 j = ownOf s2 j := by
  unfold ownOf Sys.node?; rw [h]

theorem childrenOf_of_nodes_eq {s1 s2 : Sys} (h : s1.nodes = s2.nodes) (j : Nat) :
    childrenOf s1 j = childrenOf s2 j := by
  unfold childrenOf Sys.node?; rw [h]

theorem doneOf_of_nodes_eq {s1 s2 : Sys} (h : s1.nodes = s2.nodes) (j : Nat) :
    doneOf s1 j = doneOf s2 j := by
  unfold doneOf Sys.node?; rw [h]

theorem parentOf_of_nodes_eq {s1 s2 : Sys} (h : s1.nodes = s2.nodes) (j : Nat) :
    parentOf s1 j = parentOf s2 j := by
  unfold parentOf Sys.node?; rw [h]

theorem ownOf_Go_self (s : Sys) {i : Nat} (hi : i < s.nodes.length) :
    ownOf (Go s (some i)) i = ownOf s i + 1 := by
  rw [ownOf_of_nodes_eq (nodes_Go_some s i)]; exact ownOf_goEnter_self s hi

theorem ownOf_Go_ne (s : Sys) {i j : Nat} (hij : j ≠ i) :
    ownOf (Go s (some i)) j = ownOf s j := by
  rw [ownOf_of_nodes_eq (nodes_Go_some s i)]; exact ownOf_goEnter_ne s hij

theorem childrenOf_Go_parent (s : Sys) {i p : Nat}
    (hp : parentOf s i = some p) (hplen : p < s.nodes.length) :
    childrenOf (Go s (some i)) p = childrenOf s p + 1 := by
  rw [childrenOf_of_nodes_eq (nodes_Go_some s i)]
  exact childrenOf_goEnter_parent s hp hplen

theorem childrenOf_Go_notparent (s : Sys) {i q : Nat}
    (hq : parentOf s i ≠ some q) :
    childrenOf (Go s (some i)) q = childrenOf s q := by
  rw [childrenOf_of_nodes_eq (nodes_Go_some s i)]
  exact childrenOf_goEnter_notparent s hq

theorem doneOf_Go (s : Sys) (i j : Nat) :
    doneOf (Go s (some i)) j = doneOf s j := by
  rw [doneOf_of_nodes_eq (nodes_Go_some s i)]; exact doneOf_goEnter s (some i) j

theorem parentOf_Go (s : Sys) (i j : Nat) :
    parentOf (Go s (some i)) j = parentOf s j := by
  rw [parentOf_of_nodes_eq (nodes_Go_some s i)]; exact parentOf_goEnter s (some i) j

theorem nodes_length_Go (s : Sys) (i : Nat) :
    (Go s (some i)).nodes.length = s.nodes.length := by
  rw [nodes_Go_some]; exact nodes_length_goEnter s (some i)

theorem nodes_length_childrenDown (s : Sys) (h : Option Nat) :
    (childrenDown s h).nodes.length = s.nodes.length := by
  cases h with
  | none => rfl
  | some p => exact nodes_length_modifyNode s p _

theorem parentOf_modifyNode_ne (s : Sys) {i j : Nat} (f : NodeState → NodeState)
    (h : i ≠ j) : parentOf (s.modifyNode i f) j = parentOf s j := by
  unfold parentOf; rw [node?_modifyNode_ne s f h]

theorem parentOf_modifyNode_self (s : Sys) {i : Nat} {st : NodeState}
    (hst : s.node? i = some st) (f : NodeState → NodeState) :
    parentOf (s.modifyNode i f) i = (f st).parent := by
  unfold parentOf; rw [node?_modifyNode_self, hst]; rfl

theorem ownOf_congr_node? {s1 s2 : Sys} {x y : Nat}
    (h : s1.node? x = s2.node? y) : ownOf s1 x = ownOf s2 y := by
  unfold ownOf; rw [h]

theorem childrenOf_congr_node? {s1 s2 : Sys} {x y : Nat}
    (h : s1.node? x = s2.node? y) : childrenOf s1 x = childrenOf s2 y := by
  unfold childrenOf; rw [h]

theorem parentOf_congr_node? {s1 s2 : Sys} {x y : Nat}
    (h : s1.node? x = s2.node? y) : parentOf s1 x = parentOf s2 y := by
  unfold parentOf; rw [h]

theorem props_goEnter (s : Sys) (h : Option Nat) : (goEnter s h).props = s.props := by
  cases h with
  | none => rfl
  | some i =>
    rw [goEnter_some_eq]
    cases parentOf s i <;> rfl

theorem nextTid_goEnter (s : Sys) (h : Option Nat) :
    (goEnter s h).nextTid = s.nextTid := by
  cases h with
  | none => rfl
  | some i =>
    rw [goEnter_some_eq]
    cases parentOf s i <;> rfl

theorem nextTid_goExit (s : Sys) (h : Option Nat) :
    (goExit s h).nextTid = s.nextTid := by
  cases h with
  | none => rfl
  | some i =>
    rw [goExit_some_eq]
    cases parentOf s i <;> rfl

theorem ownOf_goExit_self (s : Sys) {i : Nat} (hi : i < s.nodes.length) :
    ownOf (goExit s (some i)) i = ownOf s i - 1 := by
  have hlen : i < (childrenDown s (parentOf s i)).nodes.length := by
    rw [nodes_length_childrenDown]; exact hi
  obtain ⟨st, hst⟩ := node?_of_lt _ hlen
  rw [goExit_some_eq,
    ownOf_modifyNode_self _ hst (fun st => { st with own := st.own - 1 })]
  have h2 : ownOf (childrenDown s (parentOf s i)) i = ownOf s i :=
    ownOf_childrenDown s (parentOf s i) i
  rw [ownOf_eq_of_node? _ hst] at h2
  rw [show (({ st with own := st.own - 1 } : NodeState)).own = st.own - 1 from rfl, h2]

theorem ownOf_goExit_ne (s : Sys) {i j : Nat} (hij : j ≠ i) :
    ownOf (goExit s (some i)) j = ownOf s j := by
  rw [goExit_some_eq, ownOf_modifyNode_ne _ _ (fun he => hij he.symm),
    ownOf_childrenDown]

theorem childrenOf_goExit_parent (s : Sys) {i p : Nat}
    (hp : parentOf s i = some p) (hplen : p < s.nodes.length) :
    childrenOf (goExit s (some i)) p = childrenOf s p - 1 := by
  rw [goExit_some_eq,
    childrenOf_modifyNode_pres _ i p (fun st => { st with own := st.own - 1 })
      (fun st => rfl),
    hp, childrenDown_some_eq]
  obtain ⟨st, hst⟩ := node?_of_lt s hplen
  rw [childrenOf_modifyNode_self s hst
    (fun st => { st with children := st.children - 1 })]
  rw [childrenOf_eq_of_node? s hst]

theorem childrenOf_goExit_notparent (s : Sys) {i q : Nat}
    (hq : parentOf s i ≠ some q) :
    childrenOf (goExit s (some i)) q = childrenOf s q := by
  rw [goExit_some_eq,
    childrenOf_modifyNode_pres _ i q (fun st => { st with own := st.own - 1 })
      (fun st => rfl)]
  cases hp : parentOf s i with
  | none => rfl
  | some p =>
    have hpq : p ≠ q := fun he => hq (by rw [hp, he])
    rw [childrenDown_some_eq, childrenOf_modifyNode_ne _ _ hpq]

theorem parentOf_Stop (s : Sys) (h : Option Nat) (j : Nat) :
    parentOf (Stop s h) j = parentOf s j := by
  cases h with
  | none => rfl
  | some i =>
    rcases Stop_eq s i with ⟨_, he⟩ | ⟨_, he⟩ | ⟨_, he⟩ <;> rw [he]
    exact parentOf_modifyNode_pres s i j
      (fun st => { st with doneClosed := true }) (fun st => rfl)

theorem nextTid_Stop (s : Sys) (h : Option Nat) : (Stop s h).nextTid = s.nextTid := by
  cases h with
  | none => rfl
  | some i =>
    rcases Stop_eq s i with ⟨_, he⟩ | ⟨_, he⟩ | ⟨_, he⟩ <;> rw [he]
    rfl

theorem tasks_propExit (s : Sys) (p : PropTask) : (propExit s p).tasks = s.tasks := by
  have h1 : (propExit s p).tasks = (goExit s (some p.child)).tasks := rfl
  rw [h1, tasks_goExit]

theorem nextTid_propExit (s : Sys) (p : PropTask) :
    (propExit s p).nextTid = s.nextTid := by
  have h1 : (propExit s p).nextTid = (goExit s (some p.child)).nextTid := rfl
  rw [h1, nextTid_goExit]

theorem parentOf_propExit (s : Sys) (p : PropTask) (j : Nat) :
    parentOf (propExit s p) j = parentOf s j := parentOf_goExit s (some p.child) j

theorem nodes_length_NewRoutines (s : Sys) :
    ((NewRoutines s).1).nodes.length = s.nodes.length + 1 := by
  show (s.nodes ++ [(⟨false, 0, 0, none⟩ : NodeState)]).length = s.nodes.length + 1
  simp

theorem node?_NewRoutines_self (s : Sys) :
    ((NewRoutines s).1).node? s.nodes.length = some ⟨false, 0, 0, none⟩ := by
  show (s.nodes ++ [(⟨false, 0, 0, none⟩ : NodeState)]).get? s.nodes.length = _
  exact List.get?_concat_length s.nodes ⟨false, 0, 0, none⟩

theorem node?_NewRoutines_ne (s : Sys) {x : Nat} (hx : x ≠ s.nodes.length) :
    ((NewRoutines s).1).node? x = s.node? x := by
  rcases Nat.lt_or_ge x s.nodes.length with h | h
  · show (s.nodes ++ [(⟨false, 0, 0, none⟩ : NodeState)]).get? x = s.nodes.get? x
    exact List.get?_append h
  · have hgt : s.nodes.length < x := Nat.lt_of_le_of_ne h (fun he => hx he.symm)
    rw [node?_of_ge _ (by rw [nodes_length_NewRoutines]; exact hgt),
      node?_of_ge s h]

theorem nodes_length_childMid (s : Sys) (i : Nat) :
    (childMid s i).nodes.length = s.nodes.length + 1 := by
  unfold childMid
  rw [nodes_length_modifyNode, nodes_length_NewRoutines]

theorem node?_childMid_self (s : Sys) (i : Nat) :
    (childMid s i).node? s.nodes.length = some ⟨false, 0, 0, some i⟩ := by
  unfold childMid
  rw [node?_modifyNode_self, node?_NewRoutines_self]
  rfl

theorem node?_childMid_ne (s : Sys) (i : Nat) {x : Nat}
    (hx : x ≠ s.nodes.length) : (childMid s i).node? x = s.node? x := by
  unfold childMid
  rw [node?_modifyNode_ne _ _ (fun he => hx he.symm), node?_NewRoutines_ne s hx]

theorem tasks_childMid (s : Sys) (i : Nat) : (childMid s i).tasks = s.tasks := rfl

theorem props_childMid (s : Sys) (i : Nat) : (childMid s i).props = s.props := rfl

theorem nextTid_childMid (s : Sys) (i : Nat) :
    (childMid s i).nextTid = s.nextTid := rfl

theorem Child_fst_eq (s : Sys) (i : Nat) :
    (Child s (some i)).1
      = { goEnter (childMid s i) (some s.nodes.length) with
          props := ⟨s.nextTid, i, s.nodes.length⟩
            :: (goEnter (childMid s i) (some s.nodes.length)).props,
          nextTid := s.nextTid + 1 } := rfl

theorem Child_snd_eq (s : Sys) (i : Nat) :
    (Child s (some i)).2 = some s.nodes.length := rfl

theorem nodes_Child_fst (s : Sys) (i : Nat) :
    ((Child s (some i)).1).nodes
      = (goEnter (childMid s i) (some s.nodes.length)).nodes := rfl

theorem tasks_Child_fst (s : Sys) (i : Nat) :
    ((Child s (some i)).1).tasks = s.tasks := by
  have h1 : ((Child s (some i)).1).tasks
      = (goEnter (childMid s i) (some s.nodes.length)).tasks := rfl
  rw [h1, tasks_goEnter, tasks_childMid]

theorem props_Child_fst (s : Sys) (i : Nat) :
    ((Child s (some i)).1).props
      = ⟨s.nextTid, i, s.nodes.length⟩ :: s.props := by
  have h1 : ((Child s (some i)).1).props
      = ⟨s.nextTid, i, s.nodes.length⟩
        :: (goEnter (childMid s i) (some s.nodes.length)).props := rfl
  rw [h1, props_goEnter, props_childMid]

theorem nextTid_Child_fst (s : Sys) (i : Nat) :
    ((Child s (some i)).1).nextTid = s.nextTid + 1 := rfl

theorem nodes_length_Child_fst (s : Sys) (i : Nat) :
    ((Child s (some i)).1).nodes.length = s.nodes.length + 1 := by
  have h1 : ((Child s (some i)).1).nodes.length
      = (goEnter (childMid s i) (some s.nodes.length)).nodes.length := rfl
  rw [h1, nodes_length_goEnter, nodes_length_childMid]

theorem parentOf_Child_fst_ne (s : Sys) (i : Nat) {x : Nat}
    (hx : x ≠ s.nodes.length) :
    parentOf ((Child s (some i)).1) x = parentOf s x := by
  rw [parentOf_of_nodes_eq (nodes_Child_fst s i), parentOf_goEnter]
  exact parentOf_congr_node? (node?_childMid_ne s i hx)

theorem parentOf_childMid_self (s : Sys) (i : Nat) :
    parentOf (childMid s i) s.nodes.length = some i := by
  unfold parentOf
  rw [node?_childMid_self]
  rfl

theorem parentOf_Child_fst_new (s : Sys) (i : Nat) :
    parentOf ((Child s (some i)).1) s.nodes.length = some i := by
  rw [parentOf_of_nodes_eq (nodes_Child_fst s i), parentOf_goEnter]
  exact parentOf_childMid_self s i

theorem ownOf_Child_fst_new (s : Sys) (i : Nat) :
    ownOf ((Child s (some i)).1) s.nodes.length = 1 := by
  rw [ownOf_of_nodes_eq (nodes_Child_fst s i)]
  have hlt : s.nodes.length < (childMid s i).nodes.length := by
    rw [nodes_length_childMid]; exact Nat.lt_succ_self _
  rw [ownOf_goEnter_self _ hlt]
  have h0 : ownOf (childMid s i) s.nodes.length = 0 :=
    ownOf_eq_of_node? _ (node?_childMid_self s i)
  rw [h0]

theorem ownOf_Child_fst_ne (s : Sys) (i : Nat) {x : Nat}
    (hx : x ≠ s.nodes.length) :
    ownOf ((Child s (some i)).1) x = ownOf s x := by
  rw [ownOf_of_nodes_eq (nodes_Child_fst s i), ownOf_goEnter_ne _ hx]
  exact ownOf_congr_node? (node?_childMid_ne s i hx)

theorem childrenOf_Child_fst_parent (s : Sys) {i : Nat}
    (hi : i < s.nodes.length) :
    childrenOf ((Child s (some i)).1) i = childrenOf s i + 1 := by
  rw [childrenOf_of_nodes_eq (nodes_Child_fst s i)]
  have hlt : i < (childMid s i).nodes.length := by
    rw [nodes_length_childMid]; exact Nat.lt_succ_of_lt hi
  rw [childrenOf_goEnter_parent _ (parentOf_childMid_self s i) hlt]
  have hne : i ≠ s.nodes.length := Nat.ne_of_lt hi
  rw [childrenOf_congr_node? (node?_childMid_ne s i hne)]

theorem childrenOf_Child_fst_new (s : Sys) {i : Nat} (hi : i < s.nodes.length) :
    childrenOf ((Child s (some i)).1) s.nodes.length = 0 := by
  rw [childrenOf_of_nodes_eq (nodes_Child_fst s i)]
  have hq : parentOf (childMid s i) s.nodes.length ≠ some s.nodes.length := by
    rw [parentOf_childMid_self]
    exact fun he => absurd (Option.some.inj he) (Nat.ne_of_lt hi)
  rw [childrenOf_goEnter_notparent _ hq]
  exact childrenOf_eq_of_node? _ (node?_childMid_self s i)

theorem childrenOf_Child_fst_other (s : Sys) (i : Nat) {x : Nat}
    (hxi : x ≠ i) (hxn : x ≠ s.nodes.length) :
    childrenOf ((Child s (some i)).1) x = childrenOf s x := by
  rw [childrenOf_of_nodes_eq (nodes_Child_fst s i)]
  have hq : parentOf (childMid s i) s.nodes.length ≠ some x := by
    rw [parentOf_childMid_self]
    exact fun he => hxi (Option.some.inj he).symm
  rw [childrenOf_goEnter_notparent _ hq]
  exact childrenOf_congr_node? (node?_childMid_ne s i hxn)

theorem props_Go (s : Sys) (i : Nat) : (Go s (some i)).props = s.props := by
  have h1 : (Go s (some i)).props = (goEnter s (some i)).props := rfl
  rw [h1, props_goEnter]

theorem nextTid_Go (s : Sys) (i : Nat) :
    (Go s (some i)).nextTid = s.nextTid + 1 := rfl

theorem finishTask_none_eq (s : Sys) (t : Nat)
    (h : s.tasks.find? (fun tk => tk.tid == t) = none) : finishTask s t = s := by
  unfold finishTask
  rw [h]

theorem finishTask_some_eq (s : Sys) (t : Nat) {tk : Task}
    (h : s.tasks.find? (fun tk2 => tk2.tid == t) = some tk) :
    finishTask s t
      = { goExit s (some tk.node) with
          tasks := s.tasks.eraseP (fun tk2 => tk2.tid == t) } := by
  unfold finishTask
  rw [h]
  show ({ goExit s (some tk.node) with
      tasks := (goExit s (some tk.node)).tasks.eraseP
        (fun tk2 => tk2.tid == t) } : Sys) = _
  rw [tasks_goExit]

theorem countP_eraseP_of_find? {α : Type} {p : α → Bool} {l : List α} {a : α}
    (h : l.find? p = some a) (q : α → Bool) :
    (l.eraseP p).countP q + (if q a then 1 else 0) = l.countP q := by
  induction l with
  | nil => cases h
  | cons x xs ih =>
    by_cases hx : p x = true
    · have hax : x = a := by
        rw [List.find?_cons_of_pos xs hx] at h
        exact Option.some.inj h
      subst hax
      rw [List.eraseP_cons_of_pos hx]
      by_cases hq : q x = true
      · rw [List.countP_cons_of_pos q xs hq, if_pos hq]
      · rw [List.countP_cons_of_neg q xs (by simpa using hq),
          if_neg (by simpa using hq)]
        omega
    · rw [List.find?_cons_of_neg xs hx] at h
      rw [List.eraseP_cons_of_neg hx]
      by_cases hq : q x = true
      · rw [List.countP_cons_of_pos q _ hq, List.countP_cons_of_pos q xs hq]
        have h2 := ih h
        omega
      · rw [List.countP_cons_of_neg q _ (by simpa using hq),
          List.countP_cons_of_neg q xs (by simpa using hq)]
        exact ih h

theorem find?_eq_of_mem_unique {α : Type} {p : α → Bool} {l : List α} {a : α}
    (ha : a ∈ l) (hpa : p a = true) (huniq : ∀ b ∈ l, p b = true → b = a) :
    l.find? p = some a := by
  induction l with
  | nil => cases ha
  | cons x xs ih =>
    by_cases hx : p x = true
    · rw [List.find?_cons_of_pos xs hx, huniq x (List.mem_cons_self x xs) hx]
    · rw [List.find?_cons_of_neg xs hx]
      have ha2 : a ∈ xs := by
        cases ha with
        | head => exact absurd hpa (by simpa using hx)
        | tail _ h2 => exact h2
      exact ih ha2 (fun b hb hpb => huniq b (List.mem_cons_of_mem x hb) hpb)

theorem eq_of_pairwise_pid {l : List PropTask}
    (hpw : l.Pairwise (fun a b => a.pid ≠ b.pid))
    {a b : PropTask} (ha : a ∈ l) (hb : b ∈ l) (hpid : a.pid = b.pid) :
    a = b := by
  induction l with
  | nil => cases ha
  | cons x xs ih =>
    rw [List.pairwise_cons] at hpw
    cases ha with
    | head =>
      cases hb with
      | head => rfl
      | tail _ hb2 => exact absurd hpid (hpw.1 b hb2)
    | tail _ ha2 =>
      cases hb with
      | head => exact absurd hpid.symm (hpw.1 a ha2)
      | tail _ hb2 => exact ih hpw.2 ha2 hb2

theorem countP_tasks_parent_congr {s1 s2 : Sys} {l : List Task}
    (hp : ∀ t ∈ l, parentOf s1 t.node = parentOf s2 t.node) (i : Nat) :
    l.countP (fun t => parentOf s1 t.node == some i)
      = l.countP (fun t => parentOf s2 t.node == some i) :=
  List.countP_congr (fun a ha => by rw [hp a ha])

theorem countP_props_parent_congr {s1 s2 : Sys} {l : List PropTask}
    (hp : ∀ p ∈ l, parentOf s1 p.child = parentOf s2 p.child) (i : Nat) :
    l.countP (fun p => parentOf s1 p.child == some i)
      = l.countP (fun p => parentOf s2 p.child == some i) :=
  List.countP_congr (fun a ha => by rw [hp a ha])

theorem tasks_NewRoutines (s : Sys) : ((NewRoutines s).1).tasks = s.tasks := rfl

theorem props_NewRoutines (s : Sys) : ((NewRoutines s).1).props = s.props := rfl

theorem nextTid_NewRoutines (s : Sys) :
    ((NewRoutines s).1).nextTid = s.nextTid := rfl

theorem WF_sys0 : WF sys0 :=
  ⟨fun _ ht => absurd ht (by simp [sys0]),
   fun _ hp => absurd hp (by simp [sys0]),
   fun _ hp => absurd hp (by simp [sys0]),
   by simp [sys0],
   fun _ hx => absurd hx (by simp [sys0]),
   fun _ hi => absurd hi (by simp [sys0]),
   fun _ hi => absurd hi (by simp [sys0])⟩

theorem WF_stop {s : Sys} (hwf : WF s) (h : Option Nat) : WF (Stop s h) := by
  refine ⟨?_, ?_, ?_, ?_, ?_, ?_, ?_⟩
  · intro t ht
    rw [tasks_Stop] at ht
    rw [nodes_length_Stop]
    exact hwf.taskNode t ht
  · intro p hp
    rw [props_Stop] at hp
    rw [nodes_length_Stop]
    exact hwf.propChild p hp
  · intro p hp
    rw [props_Stop] at hp
    rw [nextTid_Stop]
    exact hwf.propPid p hp
  · rw [props_Stop]
    exact hwf.pidUnique
  · intro x hx p hp
    rw [nodes_length_Stop] at hx ⊢
    rw [parentOf_Stop] at hp
    exact hwf.parentValid x hx p hp
  · intro i hi
    rw [nodes_length_Stop] at hi
    rw [ownOf_Stop]
    unfold tasksOn propsOn
    rw [tasks_Stop, props_Stop]
    exact hwf.ownCount i hi
  · intro i hi
    rw [nodes_length_Stop] at hi
    rw [childrenOf_Stop]
    unfold tasksUnder propsUnder
    rw [tasks_Stop, props_Stop,
      countP_tasks_parent_congr (fun t _ => parentOf_Stop s h t.node) i,
      countP_props_parent_congr (fun q _ => parentOf_Stop s h q.child) i]
    exact hwf.childrenCount i hi

theorem parentOf_NewRoutines (s : Sys) (x : Nat) :
    parentOf ((NewRoutines s).1) x = parentOf s x := by
  by_cases hx : x = s.nodes.length
  · subst hx
    have h1 : parentOf ((NewRoutines s).1) s.nodes.length = none := by
      unfold parentOf
      rw [node?_NewRoutines_self]
      rfl
    have h2 : parentOf s s.nodes.length = none := by
      unfold parentOf
      rw [node?_of_ge s (Nat.le_refl _)]
      rfl
    rw [h1, h2]
  · unfold parentOf
    rw [node?_NewRoutines_ne s hx]

theorem WF_new {s : Sys} (hwf : WF s) : WF (NewRoutines s).1 := by
  refine ⟨?_, ?_, ?_, ?_, ?_, ?_, ?_⟩
  · intro t ht
    rw [tasks_NewRoutines] at ht
    rw [nodes_length_NewRoutines]
    exact Nat.lt_succ_of_lt (hwf.taskNode t ht)
  · intro p hp
    rw [props_NewRoutines] at hp
    rw [nodes_length_NewRoutines]
    exact Nat.lt_succ_of_lt (hwf.propChild p hp)
  · intro p hp
    rw [props_NewRoutines] at hp
    rw [nextTid_NewRoutines]
    exact hwf.propPid p hp
  · rw [props_NewRoutines]
    exact hwf.pidUnique
  · intro x hx p hp
    rw [nodes_length_NewRoutines] at hx ⊢
    rw [parentOf_NewRoutines] at hp
    by_cases hxn : x < s.nodes.length
    · exact Nat.lt_succ_of_lt (hwf.parentValid x hxn p hp)
    · exfalso
      unfold parentOf at hp
      rw [node?_of_ge s (Nat.le_of_not_lt hxn)] at hp
      simp at hp
  · intro i hi
    rw [nodes_length_NewRoutines] at hi
    unfold tasksOn propsOn
    rw [tasks_NewRoutines, props_NewRoutines]
    by_cases hi2 : i < s.nodes.length
    · rw [ownOf_congr_node? (node?_NewRoutines_ne s (Nat.ne_of_lt hi2))]
      exact hwf.ownCount i hi2
    · have hin : i = s.nodes.length := by omega
      subst hin
      rw [ownOf_eq_of_node? _ (node?_NewRoutines_self s)]
      have h1 : s.tasks.countP (fun t => t.node == s.nodes.length) = 0 := by
        rw [List.countP_eq_zero]
        intro t ht
        have := hwf.taskNode t ht
        simp only [beq_iff_eq]
        omega
      have h2 : s.props.countP (fun p => p.child == s.nodes.length) = 0 := by
        rw [List.countP_eq_zero]
        intro p hp
        have := hwf.propChild p hp
        simp only [beq_iff_eq]
        omega
      rw [h1, h2]
  · intro i hi
    rw [nodes_length_NewRoutines] at hi
    unfold tasksUnder propsUnder
    rw [tasks_NewRoutines, props_NewRoutines,
      countP_tasks_parent_congr (fun t _ => parentOf_NewRoutines s t.node) i,
      countP_props_parent_congr (fun q _ => parentOf_NewRoutines s q.child) i]
    by_cases hi2 : i < s.nodes.length
    · rw [childrenOf_congr_node? (node?_NewRoutines_ne s (Nat.ne_of_lt hi2))]
      exact hwf.childrenCount i hi2
    · have hin : i = s.nodes.length := by omega
      subst hin
      rw [childrenOf_eq_of_node? _ (node?_NewRoutines_self s)]
      have h1 : s.tasks.countP
          (fun t => parentOf s t.node == some s.nodes.length) = 0 := by
        rw [List.countP_eq_zero]
        intro t ht
        simp only [beq_iff_eq]
        intro he
        have := hwf.parentValid t.node (hwf.taskNode t ht) _ he
        omega
      have h2 : s.props.countP
          (fun p => parentOf s p.child == some s.nodes.length) = 0 := by
        rw [List.countP_eq_zero]
        intro p hp
        simp only [beq_iff_eq]
        intro he
        have := hwf.parentValid p.child (hwf.propChild p hp) _ he
        omega
      rw [h1, h2]

theorem WF_child {s : Sys} {i : Nat} (hwf : WF s) (hi : i < s.nodes.length) :
    WF (Child s (some i)).1 := by
  have hparc : ∀ x, x ≠ s.nodes.length →
      parentOf ((Child s (some i)).1) x = parentOf s x :=
    fun x hx => parentOf_Child_fst_ne s i hx
  have htaskpar : ∀ t ∈ s.tasks,
      parentOf ((Child s (some i)).1) t.node = parentOf s t.node :=
    fun t ht => hparc t.node (Nat.ne_of_lt (hwf.taskNode t ht))
  have hproppar : ∀ p ∈ s.props,
      parentOf ((Child s (some i)).1) p.child = parentOf s p.child :=
    fun p hp => hparc p.child (Nat.ne_of_lt (hwf.propChild p hp))
  refine ⟨?_, ?_, ?_, ?_, ?_, ?_, ?_⟩
  · intro t ht
    rw [tasks_Child_fst] at ht
    rw [nodes_length_Child_fst]
    exact Nat.lt_succ_of_lt (hwf.taskNode t ht)
  · intro p hp
    rw [props_Child_fst] at hp
    rw [nodes_length_Child_fst]
    cases hp with
    | head => exact Nat.lt_succ_self _
    | tail _ h2 => exact Nat.lt_succ_of_lt (hwf.propChild p h2)
  · intro p hp
    rw [props_Child_fst] at hp
    rw [nextTid_Child_fst]
    cases hp with
    | head => exact Nat.lt_succ_self _
    | tail _ h2 => exact Nat.lt_succ_of_lt (hwf.propPid p h2)
  · rw [props_Child_fst, List.pairwise_cons]
    refine ⟨fun b hb => ?_, hwf.pidUnique⟩
    have := hwf.propPid b hb
    show s.nextTid ≠ b.pid
    omega
  · intro x hx p hp
    rw [nodes_length_Child_fst] at hx ⊢
    by_cases hxn : x = s.nodes.length
    · subst hxn
      rw [parentOf_Child_fst_new] at hp
      have hpi : p = i := (Option.some.inj hp).symm
      subst hpi
      exact Nat.lt_succ_of_lt hi
    · rw [hparc x hxn] at hp
      have hx2 : x < s.nodes.length := by omega
      exact Nat.lt_succ_of_lt (hwf.parentValid x hx2 p hp)
  · intro j hj
    rw [nodes_length_Child_fst] at hj
    unfold tasksOn propsOn
    rw [tasks_Child_fst, props_Child_fst]
    by_cases hjn : j = s.nodes.length
    · subst hjn
      rw [ownOf_Child_fst_new,
        List.countP_cons_of_pos _ _ (by simp)]
      have h1 : s.tasks.countP (fun t => t.node == s.nodes.length) = 0 := by
        rw [List.countP_eq_zero]
        intro t ht
        have := hwf.taskNode t ht
        simp only [beq_iff_eq]
        omega
      have h2 : s.props.countP (fun p => p.child == s.nodes.length) = 0 := by
        rw [List.countP_eq_zero]
        intro p hp
        have := hwf.propChild p hp
        simp only [beq_iff_eq]
        omega
      rw [h1, h2]
    · rw [ownOf_Child_fst_ne s i hjn,
        List.countP_cons_of_neg _ _
          (by simp only [beq_iff_eq]; exact fun he => hjn he.symm)]
      have hj2 : j < s.nodes.length := by omega
      exact hwf.ownCount j hj2
  · intro j hj
    rw [nodes_length_Child_fst] at hj
    unfold tasksUnder propsUnder
    rw [tasks_Child_fst, props_Child_fst,
      countP_tasks_parent_congr htaskpar j]
    by_cases hji : j = i
    · subst hji
      rw [childrenOf_Child_fst_parent s hi,
        List.countP_cons_of_pos _ _
          (by show (parentOf ((Child s (some j)).1) s.nodes.length == some j) = true
              rw [parentOf_Child_fst_new]
              simp),
        countP_props_parent_congr hproppar j]
      have h2 := hwf.childrenCount j hi
      unfold tasksUnder propsUnder at h2
      omega
    · by_cases hjn : j = s.nodes.length
      · subst hjn
        rw [childrenOf_Child_fst_new s hi]
        have h1 : s.tasks.countP
            (fun t => parentOf s t.node == some s.nodes.length) = 0 := by
          rw [List.countP_eq_zero]
          intro t ht
          simp only [beq_iff_eq]
          intro he
          have := hwf.parentValid t.node (hwf.taskNode t ht) _ he
          omega
        rw [h1,
          List.countP_cons_of_neg _ _
            (by show ¬(parentOf ((Child s (some i)).1) s.nodes.length
                  == some s.nodes.length) = true
                rw [parentOf_Child_fst_new]
                simp only [beq_iff_eq]
                exact fun he => hji (Option.some.inj he).symm),
          countP_props_parent_congr hproppar s.nodes.length]
        have h2 : s.props.countP
            (fun p => parentOf s p.child == some s.nodes.length) = 0 := by
          rw [List.countP_eq_zero]
          intro p hp
          simp only [beq_iff_eq]
          intro he
          have := hwf.parentValid p.child (hwf.propChild p hp) _ he
          omega
        rw [h2]
      · rw [childrenOf_Child_fst_other s i hji hjn,
          List.countP_cons_of_neg _ _
            (by show ¬(parentOf ((Child s (some i)).1) s.nodes.length
                  == some j) = true
                rw [parentOf_Child_fst_new]
                simp only [beq_iff_eq]
                exact fun he => hji (Option.some.inj he).symm),
          countP_props_parent_congr hproppar j]
        have hj2 : j < s.nodes.length := by omega
        exact hwf.childrenCount j hj2

theorem WF_go {s : Sys} {i : Nat} (hwf : WF s) (hi : i < s.nodes.length) :
    WF (Go s (some i)) := by
  refine ⟨?_, ?_, ?_, ?_, ?_, ?_, ?_⟩
  · intro t ht
    rw [tasks_Go_some] at ht
    rw [nodes_length_Go]
    cases ht with
    | head => exact hi
    | tail _ h2 => exact hwf.taskNode t h2
  · intro p hp
    rw [props_Go] at hp
    rw [nodes_length_Go]
    exact hwf.propChild p hp
  · intro p hp
    rw [props_Go] at hp
    rw [nextTid_Go]
    exact Nat.lt_succ_of_lt (hwf.propPid p hp)
  · rw [props_Go]
    exact hwf.pidUnique
  · intro x hx p hp
    rw [nodes_length_Go] at hx ⊢
    rw [parentOf_Go] at hp
    exact hwf.parentValid x hx p hp
  · intro j hj
    rw [nodes_length_Go] at hj
    unfold tasksOn propsOn
    rw [tasks_Go_some, props_Go]
    by_cases hji : j = i
    · subst hji
      rw [ownOf_Go_self s hi,
        List.countP_cons_of_pos _ _ (by simp)]
      have h2 := hwf.ownCount j hj
      unfold tasksOn propsOn at h2
      omega
    · rw [ownOf_Go_ne s (fun he => hji he),
        List.countP_cons_of_neg _ _
          (by simp only [beq_iff_eq]; exact fun he => hji he.symm)]
      exact hwf.ownCount j hj
  · intro j hj
    rw [nodes_length_Go] at hj
    unfold tasksUnder propsUnder
    rw [tasks_Go_some, props_Go,
      countP_tasks_parent_congr (fun t _ => parentOf_Go s i t.node) j,
      countP_props_parent_congr (fun q _ => parentOf_Go s i q.child) j]
    by_cases hpj : parentOf s i = some j
    · have hjlen : j < s.nodes.length := hwf.parentValid i hi j hpj
      rw [childrenOf_Go_parent s hpj hjlen,
        List.countP_cons_of_pos _ _ (by simp only [hpj, beq_iff_eq])]
      have h2 := hwf.childrenCount j hj
      unfold tasksUnder propsUnder at h2
      omega
    · rw [childrenOf_Go_notparent s hpj,
        List.countP_cons_of_neg _ _
          (by simp only [beq_iff_eq]; exact hpj)]
      exact hwf.childrenCount j hj


theorem WF_finishTask {s : Sys} (hwf : WF s) (t : Nat) : WF (finishTask s t) := by
  cases hfind : s.tasks.find? (fun tk2 => tk2.tid == t) with
  | none =>
    rw [finishTask_none_eq s t hfind]
    exact hwf
  | some tk =>
    have htk_mem : tk ∈ s.tasks := List.mem_of_find?_eq_some hfind
    have htk_node : tk.node < s.nodes.length := hwf.taskNode tk htk_mem
    have hfs := finishTask_some_eq s t hfind
    have hT : (finishTask s t).tasks = s.tasks.eraseP (fun tk2 => tk2.tid == t) := by
      rw [hfs]
    have hP : (finishTask s t).props = s.props := by
      rw [hfs]
      exact props_goExit s (some tk.node)
    have hN : (finishTask s t).nextTid = s.nextTid := by
      rw [hfs]
      exact nextTid_goExit s (some tk.node)
    have hnodes : (finishTask s t).nodes = (goExit s (some tk.node)).nodes := by
      rw [hfs]
    have hlen : (finishTask s t).nodes.length = s.nodes.length := by
      rw [hnodes]
      exact nodes_length_goExit s (some tk.node)
    have hown : ∀ j, ownOf (finishTask s t) j = ownOf (goExit s (some tk.node)) j :=
      fun j => ownOf_of_nodes_eq hnodes j
    have hch : ∀ j, childrenOf (finishTask s t) j
        = childrenOf (goExit s (some tk.node)) j :=
      fun j => childrenOf_of_nodes_eq hnodes j
    have hparAll : ∀ x, parentOf (finishTask s t) x = parentOf s x :=
      fun x => (parentOf_of_nodes_eq hnodes x).trans
        (parentOf_goExit s (some tk.node) x)
    refine ⟨?_, ?_, ?_, ?_, ?_, ?_, ?_⟩
    · intro t2 ht2
      rw [hT] at ht2
      rw [hlen]
      exact hwf.taskNode t2 (mem_of_mem_eraseP ht2)
    · intro p hp
      rw [hP] at hp
      rw [hlen]
      exact hwf.propChild p hp
    · intro p hp
      rw [hP] at hp
      rw [hN]
      exact hwf.propPid p hp
    · rw [hP]
      exact hwf.pidUnique
    · intro x hx p hp
      rw [hlen] at hx ⊢
      rw [hparAll] at hp
      exact hwf.parentValid x hx p hp
    · intro j hj
      rw [hlen] at hj
      rw [hown j]
      unfold tasksOn propsOn
      rw [hT, hP]
      by_cases hj2 : j = tk.node
      · rw [hj2]
        have hkey := countP_eraseP_of_find? hfind (fun t2 => t2.node == tk.node)
        rw [if_pos (by simp)] at hkey
        rw [ownOf_goExit_self s htk_node]
        have h2 := hwf.ownCount tk.node htk_node
        unfold tasksOn propsOn at h2
        omega
      · have hkey := countP_eraseP_of_find? hfind (fun t2 => t2.node == j)
        rw [if_neg (by simp only [beq_iff_eq]; exact fun he => hj2 he.symm)] at hkey
        rw [ownOf_goExit_ne s (fun he => hj2 he)]
        have h2 := hwf.ownCount j hj
        unfold tasksOn propsOn at h2
        omega
    · intro j hj
      rw [hlen] at hj
      rw [hch j]
      unfold tasksUnder propsUnder
      rw [hT, hP,
        countP_tasks_parent_congr (fun t2 _ => hparAll t2.node) j,
        countP_props_parent_congr (fun q _ => hparAll q.child) j]
      cases hp : parentOf s tk.node with
      | some par =>
        have hparlt : par < s.nodes.length :=
          hwf.parentValid tk.node htk_node par hp
        by_cases hjp : j = par
        · rw [hjp]
          have hkey := countP_eraseP_of_find? hfind
            (fun t2 => parentOf s t2.node == some par)
          rw [if_pos (by rw [hp]; simp)] at hkey
          rw [childrenOf_goExit_parent s hp hparlt]
          have h2 := hwf.childrenCount par hparlt
          unfold tasksUnder propsUnder at h2
          omega
        · have hkey := countP_eraseP_of_find? hfind
            (fun t2 => parentOf s t2.node == some j)
          rw [if_neg (by rw [hp]
                         simp only [beq_iff_eq]
                         exact fun he => hjp (Option.some.inj he).symm)] at hkey
          rw [childrenOf_goExit_notparent s
            (by rw [hp]; exact fun he => hjp (Option.some.inj he).symm)]
          have h2 := hwf.childrenCount j hj
          unfold tasksUnder propsUnder at h2
          omega
      | none =>
        have hkey := countP_eraseP_of_find? hfind
          (fun t2 => parentOf s t2.node == some j)
        rw [if_neg (by rw [hp]; simp)] at hkey
        rw [childrenOf_goExit_notparent s
          (by rw [hp]; exact fun he => Option.noConfusion he)]
        have h2 := hwf.childrenCount j hj
        unfold tasksUnder propsUnder at h2
        omega

theorem WF_propExit {s : Sys} (hwf : WF s) {p : PropTask} (hp : p ∈ s.props) :
    WF (propExit s p) := by
  have hfind : s.props.find? (fun q => q.pid == p.pid) = some p := by
    apply find?_eq_of_mem_unique hp (by simp)
    intro b hb hpb
    exact eq_of_pairwise_pid hwf.pidUnique hb hp (by simpa using hpb)
  have hchild : p.child < s.nodes.length := hwf.propChild p hp
  have hnodes : (propExit s p).nodes = (goExit s (some p.child)).nodes := rfl
  have hown : ∀ j, ownOf (propExit s p) j = ownOf (goExit s (some p.child)) j :=
    fun j => ownOf_of_nodes_eq hnodes j
  have hch : ∀ j, childrenOf (propExit s p) j
      = childrenOf (goExit s (some p.child)) j :=
    fun j => childrenOf_of_nodes_eq hnodes j
  refine ⟨?_, ?_, ?_, ?_, ?_, ?_, ?_⟩
  · intro t2 ht2
    rw [tasks_propExit] at ht2
    rw [nodes_length_propExit]
    exact hwf.taskNode t2 ht2
  · intro q hq
    rw [props_propExit] at hq
    rw [nodes_length_propExit]
    exact hwf.propChild q (mem_of_mem_eraseP hq)
  · intro q hq
    rw [props_propExit] at hq
    rw [nextTid_propExit]
    exact hwf.propPid q (mem_of_mem_eraseP hq)
  · rw [props_propExit]
    exact hwf.pidUnique.sublist (List.eraseP_sublist s.props)
  · intro x hx q hq
    rw [nodes_length_propExit] at hx ⊢
    rw [parentOf_propExit] at hq
    exact hwf.parentValid x hx q hq
  · intro j hj
    rw [nodes_length_propExit] at hj
    rw [hown j]
    unfold tasksOn propsOn
    rw [tasks_propExit, props_propExit]
    by_cases hj2 : j = p.child
    · rw [hj2]
      have hkey := countP_eraseP_of_find? hfind (fun q => q.child == p.child)
      rw [if_pos (by simp)] at hkey
      rw [ownOf_goExit_self s hchild]
      have h2 := hwf.ownCount p.child hchild
      unfold tasksOn propsOn at h2
      omega
    · have hkey := countP_eraseP_of_find? hfind (fun q => q.child == j)
      rw [if_neg (by simp only [beq_iff_eq]; exact fun he => hj2 he.symm)] at hkey
      rw [ownOf_goExit_ne s (fun he => hj2 he)]
      have h2 := hwf.ownCount j hj
      unfold tasksOn propsOn at h2
      omega
  · intro j hj
    rw [nodes_length_propExit] at hj
    rw [hch j]
    unfold tasksUnder propsUnder
    rw [tasks_propExit, props_propExit,
      countP_tasks_parent_congr (fun t2 _ => parentOf_propExit s p t2.node) j,
      countP_props_parent_congr (fun q _ => parentOf_propExit s p q.child) j]
    cases hpp : parentOf s p.child with
    | some par =>
      have hparlt : par < s.nodes.length :=
        hwf.parentValid p.child hchild par hpp
      by_cases hjp : j = par
      · rw [hjp]
        have hkey := countP_eraseP_of_find? hfind
          (fun q => parentOf s q.child == some par)
        rw [if_pos (by rw [hpp]; simp)] at hkey
        rw [childrenOf_goExit_parent s hpp hparlt]
        have h2 := hwf.childrenCount par hparlt
        unfold tasksUnder propsUnder at h2
        omega
      · have hkey := countP_eraseP_of_find? hfind
          (fun q => parentOf s q.child == some j)
        rw [if_neg (by rw [hpp]
                       simp only [beq_iff_eq]
                       exact fun he => hjp (Option.some.inj he).symm)] at hkey
        rw [childrenOf_goExit_notparent s
          (by rw [hpp]; exact fun he => hjp (Option.some.inj he).symm)]
        have h2 := hwf.childrenCount j hj
        unfold tasksUnder propsUnder at h2
        omega
    | none =>
      have hkey := countP_eraseP_of_find? hfind
        (fun q => parentOf s q.child == some j)
      rw [if_neg (by rw [hpp]; simp)] at hkey
      rw [childrenOf_goExit_notparent s
        (by rw [hpp]; exact fun he => Option.noConfusion he)]
      have h2 := hwf.childrenCount j hj
      unfold tasksUnder propsUnder at h2
      omega

theorem WF_pstep {s u : Sys} (hwf : WF s) (hstep : PStep s u) : WF u := by
  cases hstep with
  | forward hp hd =>
    rename_i p
    have hwf2 : WF (Stop s (some p.child)) := WF_stop hwf _
    have hp2 : p ∈ (Stop s (some p.child)).props := by
      rw [props_Stop]
      exact hp
    exact WF_propExit hwf2 hp2
  | selfExit hp hd =>
    exact WF_propExit hwf hp

theorem WF_of_Reachable {s : Sys} (h : Reachable s) : WF s := by
  induction h with
  | init => exact WF_sys0
  | new _ ih => exact WF_new ih
  | childStep _ hi ih => exact WF_child ih hi
  | goStep _ hi ih => exact WF_go ih hi
  | finishStep _ ih => exact WF_finishTask ih _
  | stopStep _ ih => exact WF_stop ih _
  | propStep _ hstep ih => exact WF_pstep ih hstep

theorem ownZero_false_of_task {s : Sys} (hwf : WF s) {r : Nat}
    (hr : r < s.nodes.length) {tk : Task} (htk : tk ∈ s.tasks)
    (hnode : tk.node = r) : ownZero s r = false := by
  have h1 := hwf.ownCount r hr
  have h2 : 0 < tasksOn s r := by
    unfold tasksOn
    rw [List.countP_pos]
    exact ⟨tk, htk, by rw [hnode]; simp⟩
  unfold ownZero
  rw [beq_eq_false_iff_ne]
  omega

theorem childrenZero_false_of_child_task {s : Sys} (hwf : WF s) {r : Nat}
    (hr : r < s.nodes.length) {tk : Task} (htk : tk ∈ s.tasks)
    (hparent : parentOf s tk.node = some r) : childrenZero s r = false := by
  have h1 := hwf.childrenCount r hr
  have h2 : 0 < tasksUnder s r := by
    unfold tasksUnder
    rw [List.countP_pos]
    exact ⟨tk, htk, by rw [hparent]; simp⟩
  unfold childrenZero
  rw [beq_eq_false_iff_ne]
  omega

theorem waitExec_no_finish_of_own {env : Nat → Sys} {r : Nat}
    (hown : ∀ m, ownZero (env m) r = false) :
    ∀ tm pc, WaitExec env r tm pc → pc ≠ WaitPC.finished := by
  intro tm pc hexec
  induction hexec with
  | init => exact fun h => nomatch h
  | stutter _ ih => exact ih
  | step hw hs ih =>
    rename_i t0 pc0 pc2
    intro hfin
    subst hfin
    cases pc0 with
    | atChildren =>
      simp only [waitStep] at hs
      by_cases hc : childrenZero (env t0) r = true
      · rw [if_pos hc] at hs
        simp at hs
      · rw [if_neg hc] at hs
        exact Option.noConfusion hs
    | atOwn =>
      simp only [waitStep] at hs
      rw [if_neg (by rw [hown t0]; exact fun h => nomatch h)] at hs
      exact Option.noConfusion hs
    | finished =>
      simp only [waitStep] at hs
      exact Option.noConfusion hs

theorem waitExec_stuck_of_children {env : Nat → Sys} {r : Nat}
    (hch : ∀ m, childrenZero (env m) r = false) :
    ∀ tm pc, WaitExec env r tm pc → pc = WaitPC.atChildren := by
  intro tm pc hexec
  induction hexec with
  | init => rfl
  | stutter _ ih => exact ih
  | step hw hs ih =>
    rename_i t0 pc0 pc2
    subst ih
    simp only [waitStep] at hs
    rw [if_neg (by rw [hch t0]; exact fun h => nomatch h)] at hs
    exact Option.noConfusion hs

theorem finishTask_Go_eq (s : Sys) (i : Nat) :
    finishTask (Go s (some i)) s.nextTid
      = { goExit (Go s (some i)) (some i) with tasks := s.tasks } := by
  have hfind : (Go s (some i)).tasks.find? (fun tk => tk.tid == s.nextTid)
      = some ⟨s.nextTid, i⟩ := by
    rw [tasks_Go_some]
    simp [List.find?]
  have htasks : (goExit (Go s (some i)) (some i)).tasks.eraseP
      (fun tk2 => tk2.tid == s.nextTid) = s.tasks := by
    rw [tasks_goExit, tasks_Go_some]
    simp [List.eraseP_cons]
  unfold finishTask
  rw [hfind]
  show ({ goExit (Go s (some i)) (some i) with
      tasks := (goExit (Go s (some i)) (some i)).tasks.eraseP
        (fun tk2 => tk2.tid == s.nextTid) } : Sys) = _
  rw [htasks]

theorem ownOf_finishTask_Go (s : Sys) {i : Nat} (hi : i < s.nodes.length)
    (j : Nat) : ownOf (finishTask (Go s (some i)) s.nextTid) j = ownOf s j := by
  rw [finishTask_Go_eq]
  have hnodes : ({ goExit (Go s (some i)) (some i) with tasks := s.tasks } : Sys).nodes
      = (goExit (Go s (some i)) (some i)).nodes := rfl
  rw [ownOf_of_nodes_eq hnodes, goExit_some_eq]
  by_cases hij : j = i
  · subst hij
    have hlen : j < (childrenDown (Go s (some j)) (parentOf (Go s (some j)) j)).nodes.length := by
      rw [nodes_length_childrenDown, nodes_length_Go]; exact hi
    obtain ⟨st, hst⟩ := node?_of_lt _ hlen
    rw [ownOf_modifyNode_self _ hst (fun st => { st with own := st.own - 1 })]
    have h2 : ownOf (childrenDown (Go s (some j)) (parentOf (Go s (some j)) j)) j
        = ownOf s j + 1 := by
      rw [ownOf_childrenDown]; exact ownOf_Go_self s hi
    rw [ownOf_eq_of_node? _ hst] at h2
    rw [show (({ st with own := st.own - 1 } : NodeState)).own = st.own - 1 from rfl,
      h2, Nat.add_sub_cancel]
  · rw [ownOf_modifyNode_ne _ _ (fun he => hij he.symm), ownOf_childrenDown]
    exact ownOf_Go_ne s hij

theorem childrenOf_finishTask_Go (s : Sys) {i : Nat} (hi : i < s.nodes.length)
    (j : Nat) :
    childrenOf (finishTask (Go s (some i)) s.nextTid) j = childrenOf s j := by
  rw [finishTask_Go_eq]
  have hnodes : ({ goExit (Go s (some i)) (some i) with tasks := s.tasks } : Sys).nodes
      = (goExit (Go s (some i)) (some i)).nodes := rfl
  rw [childrenOf_of_nodes_eq hnodes, goExit_some_eq,
    childrenOf_modifyNode_pres _ i j (fun st => { st with own := st.own - 1 })
      (fun st => rfl),
    parentOf_Go]
  cases hp : parentOf s i with
  | none =>
    show childrenOf (Go s (some i)) j = childrenOf s j
    exact childrenOf_Go_notparent s (by rw [hp]; exact fun h => Option.noConfusion h)
  | some p =>
    by_cases hjp : j = p
    · subst hjp
      by_cases hplen : j < s.nodes.length
      · rw [childrenDown_some_eq]
        have hlen2 : j < (Go s (some i)).nodes.length := by
          rw [nodes_length_Go]; exact hplen
        obtain ⟨st, hst⟩ := node?_of_lt _ hlen2
        rw [childrenOf_modifyNode_self _ hst
          (fun st => { st with children := st.children - 1 })]
        have h2 : childrenOf (Go s (some i)) j = childrenOf s j + 1 :=
          childrenOf_Go_parent s hp hplen
        rw [childrenOf_eq_of_node? _ hst] at h2
        rw [show (({ st with children := st.children - 1 } : NodeState)).children
            = st.children - 1 from rfl, h2, Nat.add_sub_cancel]
      · have hge : s.nodes.length ≤ j := Nat.le_of_not_lt hplen
        rw [childrenDown_some_eq]
        have hn1 : ((Go s (some i)).modifyNode j
              (fun st => { st with children := st.children - 1 })).node? j = none := by
          apply node?_of_ge
          rw [nodes_length_modifyNode, nodes_length_Go]
          exact hge
        rw [childrenOf_of_none _ hn1, childrenOf_of_none s (node?_of_ge s hge)]
    · rw [childrenDown_some_eq,
        childrenOf_modifyNode_ne _ _ (fun he => hjp he.symm)]
      apply childrenOf_Go_notparent
      rw [hp]
      exact fun h => hjp (Option.some.inj h).symm

theorem tasks_finishTask_Go (s : Sys) (i : Nat) :
    (finishTask (Go s (some i)) s.nextTid).tasks = s.tasks := by
  rw [finishTask_Go_eq]

/-- C1 counterexample: in the chain root 0 → child 1 → grandchild 2 of
`sysRCG`, the root is a strict ancestor of the grandchild (it is the parent
of the grandchild's parent), yet `Go` on the grandchild leaves the root's
descendant-task counter unchanged; only the grandchild's own counter and the
direct parent's descendant counter are incremented. -/
theorem go_skips_deep_ancestor_cex :
    parentOf sysRCG 2 = some 1 ∧ parentOf sysRCG 1 = some 0
    ∧ ownOf (Go sysRCG (some 2)) 2 = ownOf sysRCG 2 + 1
    ∧ childrenOf (Go sysRCG (some 2)) 1 = childrenOf sysRCG 1 + 1
    ∧ childrenOf (Go sysRCG (some 2)) 0 = childrenOf sysRCG 0 := by
  decide

/-- C1 (amended): launching a task via `Go` on a valid node increments the
node's own-task counter and — exactly when the node has a (valid) parent —
that direct parent's descendant-task counter, leaving every other counter,
every done flag and every parent pointer unchanged; when the launched
function completes (however it returns), the deferred bookkeeping decrements
exactly the counters that were incremented, restoring all counters and the
running-task list. -/
theorem go_counters_self_and_parent (s : Sys) (i : Nat)
    (hi : i < s.nodes.length) :
    ownOf (Go s (some i)) i = ownOf s i + 1
    ∧ (∀ j, j ≠ i → ownOf (Go s (some i)) j = ownOf s j)
    ∧ (∀ p, parentOf s i = some p → p < s.nodes.length →
        childrenOf (Go s (some i)) p = childrenOf s p + 1)
    ∧ (∀ q, parentOf s i ≠ some q → childrenOf (Go s (some i)) q = childrenOf s q)
    ∧ (∀ j, doneOf (Go s (some i)) j = doneOf s j)
    ∧ (∀ j, parentOf (Go s (some i)) j = parentOf s j)
    ∧ (∀ j, ownOf (finishTask (Go s (some i)) s.nextTid) j = ownOf s j)
    ∧ (∀ j, childrenOf (finishTask (Go s (some i)) s.nextTid) j = childrenOf s j)
    ∧ (finishTask (Go s (some i)) s.nextTid).tasks = s.tasks := by
  refine ⟨ownOf_Go_self s hi, fun j hj => ownOf_Go_ne s hj,
    fun p hp hplen => childrenOf_Go_parent s hp hplen,
    fun q hq => childrenOf_Go_notparent s hq,
    fun j => doneOf_Go s i j,
    fun j => parentOf_Go s i j,
    fun j => ownOf_finishTask_Go s hi j,
    fun j => childrenOf_finishTask_Go s hi j,
    tasks_finishTask_Go s i⟩

/-- Witness for the amended C1 theorem at the concrete system `sysRCG` and
node 2 (the grandchild, whose parent is node 1). -/
theorem go_counters_self_and_parent_witness :
    ownOf (Go sysRCG (some 2)) 2 = ownOf sysRCG 2 + 1
    ∧ (finishTask (Go sysRCG (some 2)) sysRCG.nextTid).tasks = sysRCG.tasks := by
  have h := go_counters_self_and_parent sysRCG 2 (by decide)
  exact ⟨h.1, h.2.2.2.2.2.2.2.2⟩

/-- C2 counterexample: after stopping the root of the chain 0 → 1 → 2 and
letting both propagation tasks forward the stop (states reachable by
`PSteps`), the user task launched on the grandchild (node 2, a strict
descendant of the root) is still running, yet both counters `Wait` on the
root drains are zero and an execution of `Wait` on the root runs to
completion. -/
theorem wait_returns_while_descendant_task_runs_cex :
    PSteps sysStopR sysFwd2
    ∧ sysFwd2.tasks = [⟨2, 2⟩]
    ∧ parentOf sysFwd2 2 = some 1 ∧ parentOf sysFwd2 1 = some 0
    ∧ waitCanReturn sysFwd2 (some 0) = true
    ∧ WaitExec (fun _ => sysFwd2) 0 2 WaitPC.finished := by
  refine ⟨?_, by decide, by decide, by decide, by decide, ?_⟩
  · have h1 : PStep sysStopR (propExit (Stop sysStopR (some 1)) ⟨0, 0, 1⟩) :=
      PStep.forward (p := ⟨0, 0, 1⟩) (by decide) (by decide)
    have h2 : PStep sysFwd1 (propExit (Stop sysFwd1 (some 2)) ⟨1, 1, 2⟩) :=
      PStep.forward (p := ⟨1, 1, 2⟩) (by decide) (by decide)
    exact PSteps.tail (PSteps.tail (PSteps.refl _) h1) h2
  · have w1 : WaitExec (fun _ => sysFwd2) 0 1 WaitPC.atOwn :=
      WaitExec.step WaitExec.init (by decide)
    exact WaitExec.step w1 (by decide)

/-- C2 (amended): in every reachable state, the counters drained by `Wait`
on node `r` are held exactly by the running tasks launched on `r` and on
direct children of `r` (and the direct children's propagation tasks).
Hence: at any time while a task launched via `Go` on `r` or on a direct
child of `r` is still running, `Wait(r)`'s return condition is false; over
any trace of reachable states throughout which such a task stays running,
no execution of `Wait` on `r` ever reaches its final state; and once no
running task or propagation task remains on `r` or under `r`, the return
condition holds and an execution of `Wait` on `r` runs to completion. -/
theorem wait_blocks_while_self_or_child_task_runs (s : Sys) (r : Nat)
    (hreach : Reachable s) (hr : r < s.nodes.length) :
    (∀ tk ∈ s.tasks, tk.node = r → waitCanReturn s (some r) = false)
    ∧ (∀ tk ∈ s.tasks, parentOf s tk.node = some r →
        waitCanReturn s (some r) = false)
    ∧ ((∀ tk ∈ s.tasks, tk.node ≠ r ∧ parentOf s tk.node ≠ some r) →
       (∀ p ∈ s.props, p.child ≠ r ∧ parentOf s p.child ≠ some r) →
        waitCanReturn s (some r) = true
          ∧ WaitExec (fun _ => s) r 2 WaitPC.finished)
    ∧ (∀ (env : Nat → Sys) (tk : Task),
        (∀ m, Reachable (env m) ∧ r < (env m).nodes.length
          ∧ tk ∈ (env m).tasks) →
        (tk.node = r ∨ (∀ m, parentOf (env m) tk.node = some r)) →
        ∀ tm pc, WaitExec env r tm pc → pc ≠ WaitPC.finished) := by
  have hwf := WF_of_Reachable hreach
  refine ⟨?_, ?_, ?_, ?_⟩
  · intro tk htk hnode
    have h1 := ownZero_false_of_task hwf hr htk hnode
    show (childrenZero s r && ownZero s r) = false
    rw [h1, Bool.and_false]
  · intro tk htk hparent
    have h1 := childrenZero_false_of_child_task hwf hr htk hparent
    show (childrenZero s r && ownZero s r) = false
    rw [h1, Bool.false_and]
  · intro hts hps
    have hto : tasksOn s r = 0 := by
      unfold tasksOn
      rw [List.countP_eq_zero]
      intro a ha
      simp only [beq_iff_eq]
      exact (hts a ha).1
    have hpo : propsOn s r = 0 := by
      unfold propsOn
      rw [List.countP_eq_zero]
      intro a ha
      simp only [beq_iff_eq]
      exact (hps a ha).1
    have htu : tasksUnder s r = 0 := by
      unfold tasksUnder
      rw [List.countP_eq_zero]
      intro a ha
      simp only [beq_iff_eq]
      exact (hts a ha).2
    have hpu : propsUnder s r = 0 := by
      unfold propsUnder
      rw [List.countP_eq_zero]
      intro a ha
      simp only [beq_iff_eq]
      exact (hps a ha).2
    have hoz : ownZero s r = true := by
      unfold ownZero
      have h1 := hwf.ownCount r hr
      simp only [beq_iff_eq]
      omega
    have hcz : childrenZero s r = true := by
      unfold childrenZero
      have h1 := hwf.childrenCount r hr
      simp only [beq_iff_eq]
      omega
    refine ⟨?_, ?_⟩
    · show (childrenZero s r && ownZero s r) = true
      rw [hcz, hoz]
      rfl
    · have w1 : WaitExec (fun _ => s) r 1 WaitPC.atOwn :=
        WaitExec.step WaitExec.init
          (by show waitStep s r WaitPC.atChildren = some WaitPC.atOwn
              simp only [waitStep]
              rw [if_pos hcz])
      exact WaitExec.step w1
        (by show waitStep s r WaitPC.atOwn = some WaitPC.finished
            simp only [waitStep]
            rw [if_pos hoz])
  · intro env tk hall hcase
    cases hcase with
    | inl hnode =>
      exact waitExec_no_finish_of_own
        (fun m => ownZero_false_of_task (WF_of_Reachable (hall m).1)
          (hall m).2.1 (hall m).2.2 hnode)
    | inr hpar =>
      intro tm pc hexec
      have hstuck := waitExec_stuck_of_children
        (fun m => childrenZero_false_of_child_task (WF_of_Reachable (hall m).1)
          (hall m).2.1 (hall m).2.2 (hpar m)) tm pc hexec
      rw [hstuck]
      exact fun h => nomatch h

/-- Witness for the amended C2 theorem: in the reachable state obtained by
launching one task on the root of `sysRC`, that running task keeps `Wait`
on the root blocked. -/
theorem wait_blocks_while_self_or_child_task_runs_witness :
    waitCanReturn (Go sysRC (some 0)) (some 0) = false := by
  have hre : Reachable (Go sysRC (some 0)) :=
    Reachable.goStep
      (Reachable.childStep (Reachable.new Reachable.init) (by decide))
      (by decide)
  exact (wait_blocks_while_self_or_child_task_runs (Go sysRC (some 0)) 0 hre
    (by decide)).1 ⟨1, 0⟩ (by decide) rfl

theorem waitExec_phase_observations {env : Nat → Sys} {i t : Nat} {pc : WaitPC}
    (h : WaitExec env i t pc) :
    (pc = WaitPC.atOwn → ∃ t1, t1 < t ∧ childrenZero (env t1) i = true)
    ∧ (pc = WaitPC.finished →
        ∃ t1 t2, t1 < t2 ∧ t2 < t ∧ childrenZero (env t1) i = true
          ∧ ownZero (env t2) i = true) := by
  induction h with
  | init =>
    exact ⟨fun hpc => (nomatch hpc), fun hpc => (nomatch hpc)⟩
  | stutter hw ih =>
    refine ⟨fun hpc => ?_, fun hpc => ?_⟩
    · obtain ⟨t1, ht1, hc⟩ := ih.1 hpc
      exact ⟨t1, Nat.lt_succ_of_lt ht1, hc⟩
    · obtain ⟨t1, t2, h12, h2t, hc, ho⟩ := ih.2 hpc
      exact ⟨t1, t2, h12, Nat.lt_succ_of_lt h2t, hc, ho⟩
  | step hw hs ih =>
    rename_i t pc0 pc2
    cases pc0 with
    | atChildren =>
      by_cases hc : childrenZero (env t) i = true
      · have hpc2 : pc2 = WaitPC.atOwn := by
          unfold waitStep at hs
          rw [if_pos hc] at hs
          exact (Option.some.inj hs).symm
        subst hpc2
        exact ⟨fun _ => ⟨t, Nat.lt_succ_self t, hc⟩, fun hpc => (nomatch hpc)⟩
      · exfalso
        unfold waitStep at hs
        rw [if_neg hc] at hs
        exact Option.noConfusion hs
    | atOwn =>
      by_cases ho : ownZero (env t) i = true
      · have hpc2 : pc2 = WaitPC.finished := by
          unfold waitStep at hs
          rw [if_pos ho] at hs
          exact (Option.some.inj hs).symm
        subst hpc2
        refine ⟨fun hpc => (nomatch hpc), fun _ => ?_⟩
        obtain ⟨t1, ht1, hc⟩ := ih.1 rfl
        exact ⟨t1, t, ht1, Nat.lt_succ_self t, hc, ho⟩
      · exfalso
        unfold waitStep at hs
        rw [if_neg ho] at hs
        exact Option.noConfusion hs
    | finished =>
      exfalso
      unfold waitStep at hs
      exact Option.noConfusion hs

/-- C3: any execution of `Wait` on a node that runs to completion first
observed the descendant-task (children) counter at zero and only strictly
later observed the own-task counter at zero: the two drain phases are
performed strictly in that order. -/
theorem wait_two_phase_order (env : Nat → Sys) (i t : Nat)
    (h : WaitExec env i t WaitPC.finished) :
    ∃ t1 t2, t1 < t2 ∧ childrenZero (env t1) i = true
      ∧ ownZero (env t2) i = true := by
  obtain ⟨t1, t2, h12, _, hc, ho⟩ := (waitExec_phase_observations h).2 rfl
  exact ⟨t1, t2, h12, hc, ho⟩

/-- Witness for C3 at a concrete completed execution of `Wait` on the sole
node of `sysR`. -/
theorem wait_two_phase_order_witness :
    ∃ t1 t2 : Nat, t1 < t2 ∧ childrenZero ((fun _ => sysR) t1) 0 = true
      ∧ ownZero ((fun _ => sysR) t2) 0 = true := by
  have w1 : WaitExec (fun _ => sysR) 0 1 WaitPC.atOwn :=
    WaitExec.step WaitExec.init (by decide)
  have w2 : WaitExec (fun _ => sysR) 0 2 WaitPC.finished :=
    WaitExec.step w1 (by decide)
  exact wait_two_phase_order (fun _ => sysR) 0 2 w2

theorem stop_stop (s : Sys) (h : Option Nat) : Stop (Stop s h) h = Stop s h := by
  cases h with
  | none => rfl
  | some i =>
    cases hn : (Stop s (some i)).node? i with
    | none => rw [Stop_some_eq (Stop s (some i)) i, closeRaw_none _ hn]
    | some st =>
      have hlt : i < s.nodes.length := by
        have h1 : i < (Stop s (some i)).nodes.length := by
          apply Nat.lt_of_not_le
          intro hge
          rw [node?_of_ge _ hge] at hn
          exact Option.noConfusion hn
        rw [nodes_length_Stop] at h1
        exact h1
      obtain ⟨st0, hst0⟩ := node?_of_lt s hlt
      have hdone : doneOf (Stop s (some i)) i = true := doneOf_Stop_self s hst0
      rw [doneOf_eq_of_node? _ hn] at hdone
      rw [Stop_some_eq (Stop s (some i)) i, closeRaw_closed _ hn hdone]

theorem stopN_eq_stop : ∀ (n : Nat) (s : Sys) (h : Option Nat), 1 ≤ n →
    stopN n s h = Stop s h := by
  intro n
  induction n with
  | zero => intro s h hn; cases hn
  | succ m ih =>
    intro s h hn
    show stopN m (Stop s h) h = Stop s h
    cases m with
    | zero => rfl
    | succ k =>
      rw [ih (Stop s h) h (Nat.succ_le_succ (Nat.zero_le k)), stop_stop]

/-- C4: for every N ≥ 1, calling `Stop` N times on any handle produces
exactly the state one `Stop` produces; and on an already-closed channel the
raw `close` does panic but `Stop` absorbs it via `recover`, returning
normally with the state unchanged — so repeated (and, in any interleaving,
concurrent) stops never fault. -/
theorem stop_idempotent_never_faults (n : Nat) (s : Sys) (h : Option Nat)
    (hn : 1 ≤ n) :
    stopN n s h = Stop s h
    ∧ ∀ i st, s.node? i = some st → st.doneClosed = true →
        closeRaw s i = Except.error () ∧ Stop s (some i) = s := by
  refine ⟨stopN_eq_stop n s h hn, fun i st hst hd => ?_⟩
  refine ⟨closeRaw_closed s hst hd, ?_⟩
  rw [Stop_some_eq, closeRaw_closed s hst hd]

/-- Witness for C4: three stops on the root of `sysRC` equal one stop. -/
theorem stop_idempotent_never_faults_witness :
    stopN 3 sysRC (some 0) = Stop sysRC (some 0) :=
  (stop_idempotent_never_faults 3 sysRC (some 0) (by decide)).1

/-- C5: with root 0 and child 1 of `sysRC`: (a) after `Stop` on the root,
the propagation task can fire, reaching a state where the child's done
channel is closed; (b) in every state reachable by propagation steps from
the stopped root, either the child's channel is already closed or the
propagation task is still pending with the root's channel closed (its
forwarding step enabled), so under weak fairness the child is eventually
stopped; (c) after `Stop` on the child, no sequence of propagation steps
ever closes the root's channel; (d) every propagation step consumes its
propagation task: the pending set strictly shrinks, so each task performs
at most one forwarding action and then exits. -/
theorem stop_propagates_downward_only :
    (PSteps sysRCStopR sysRCFwd ∧ chanClosed sysRCFwd (Done (some 1)) = true)
    ∧ (∀ s2, PSteps sysRCStopR s2 →
        chanClosed s2 (Done (some 1)) = true
        ∨ ((⟨0, 0, 1⟩ : PropTask) ∈ s2.props
            ∧ chanClosed s2 (Done (some 0)) = true))
    ∧ (∀ s2, PSteps (Stop sysRC (some 1)) s2 →
        chanClosed s2 (Done (some 0)) = false)
    ∧ (∀ s2 s3, PStep s2 s3 → s3.props.length < s2.props.length) := by
  refine ⟨⟨?_, by decide⟩, ?_, ?_, ?_⟩
  · exact PSteps.tail (PSteps.refl _)
      (PStep.forward (p := ⟨0, 0, 1⟩) (by decide) (by decide))
  · intro s2 hsteps
    have K : (∀ q ∈ s2.props, q = (⟨0, 0, 1⟩ : PropTask)) ∧ s2.nodes.length = 2
        ∧ doneOf s2 0 = true
        ∧ (doneOf s2 1 = true ∨ (⟨0, 0, 1⟩ : PropTask) ∈ s2.props) := by
      induction hsteps with
      | refl => exact ⟨by decide, by decide, by decide, Or.inr (by decide)⟩
      | tail hst hstep ih =>
        refine ⟨fun q hq => ih.1 q (PStep_props_sub hstep q hq),
          by rw [PStep_nodes_length hstep]; exact ih.2.1,
          PStep_done_mono hstep 0 ih.2.2.1, ?_⟩
        rename_i t u
        by_cases hd1 : doneOf t 1 = true
        · exact Or.inl (PStep_done_mono hstep 1 hd1)
        · have hmem : (⟨0, 0, 1⟩ : PropTask) ∈ t.props := by
            rcases ih.2.2.2 with hd | hm
            · exact absurd hd hd1
            · exact hm
          cases hstep with
          | forward hp hdp =>
            rename_i p
            have hpeq : p = ⟨0, 0, 1⟩ := ih.1 p hp
            subst hpeq
            refine Or.inl ?_
            rw [doneOf_propExit]
            have h1lt : (1 : Nat) < t.nodes.length := by
              rw [ih.2.1]; exact Nat.one_lt_two
            obtain ⟨st, hst1⟩ := node?_of_lt t h1lt
            exact doneOf_Stop_self t hst1
          | selfExit hp hdc =>
            rename_i p
            have hpeq : p = ⟨0, 0, 1⟩ := ih.1 p hp
            subst hpeq
            exact absurd hdc hd1
    rcases K.2.2.2 with hd | hm
    · exact Or.inl hd
    · exact Or.inr ⟨hm, K.2.2.1⟩
  · intro s2 hsteps
    have L : (∀ q ∈ s2.props, q = (⟨0, 0, 1⟩ : PropTask))
        ∧ doneOf s2 0 = false := by
      induction hsteps with
      | refl => exact ⟨by decide, by decide⟩
      | tail hst hstep ih =>
        refine ⟨fun q hq => ih.1 q (PStep_props_sub hstep q hq), ?_⟩
        cases hstep with
        | forward hp hdp =>
          rename_i p
          have hpeq : p = ⟨0, 0, 1⟩ := ih.1 p hp
          subst hpeq
          rw [doneOf_propExit, doneOf_Stop_ne _ (by decide)]
          exact ih.2
        | selfExit hp hdc =>
          rw [doneOf_propExit]
          exact ih.2
    exact L.2
  · intro s2 s3 hstep
    cases hstep with
    | forward hp hd =>
      rw [props_propExit, props_Stop]
      exact length_eraseP_lt hp (by simp)
    | selfExit hp hd =>
      rw [props_propExit]
      exact length_eraseP_lt hp (by simp)

/-- Witness for C5: the no-upward-propagation conjunct applied at the state
just after stopping the child (zero propagation steps). -/
theorem stop_propagates_downward_only_witness :
    chanClosed (Stop sysRC (some 1)) (Done (some 0)) = false :=
  stop_propagates_downward_only.2.2.1 (Stop sysRC (some 1)) (PSteps.refl _)

/-- C6: nil-safety of the node operations: `Done` on an absent node is the
nil channel, which never becomes ready; `Child` on an absent node yields an
absent node and leaves the system unchanged; `Go`, `Stop` on an absent node
are no-ops; `Wait` on an absent node returns immediately. All are total,
so none can fault. -/
theorem nil_safety (s : Sys) :
    Done none = none
    ∧ chanClosed s (Done none) = false
    ∧ Child s none = (s, none)
    ∧ Go s none = s
    ∧ Stop s none = s
    ∧ waitCanReturn s none = true :=
  ⟨rfl, rfl, rfl, rfl, rfl, rfl⟩

/-- C7: `Start` on a Running service (one holding an active node) fails
with AlreadyStarted and performs no other action: the system is unchanged
(no child created), the node-call log is empty (the start routine was not
invoked), and the service — including its active node — is unchanged. -/
theorem service_start_already_started (svc : Svc) (s : Sys) (rtns : Option Nat)
    (r : Nat) (hr : svc.routines = some r) :
    Svc.Start (some svc) s rtns = (some svc, s, some SvcError.alreadyStarted, []) := by
  simp only [Svc.Start]
  rw [hr]

/-- Witness for C7 at the concrete Running service `svcRunning`. -/
theorem service_start_already_started_witness :
    Svc.Start (some svcRunning) sysR (some 0)
      = (some svcRunning, sysR, some SvcError.alreadyStarted, []) :=
  service_start_already_started svcRunning sysR (some 0) 0 rfl

/-- C8: when an Idle service's start routine fails, `Start` returns exactly
the routine's error; the final system is the post-routine system with
`Stop` applied to the candidate child, the log shows child creation,
routine invocation, then `Stop` and `Wait` on the candidate (the drain)
before returning, and the receiver is returned unchanged — still Idle with
no active node; moreover the candidate's done channel is closed in the
returned system whenever the candidate is a valid node. -/
theorem service_start_failure_cleanup (svc : Svc) (s : Sys) (rtns : Option Nat)
    (s2 : Sys) (e : SvcError) (hidle : svc.routines = none)
    (hrun : svc.start (Child s rtns).1 (Child s rtns).2 = (s2, some e)) :
    Svc.Start (some svc) s rtns
      = (some svc, Stop s2 (Child s rtns).2, some e,
          [Ev.evChild (Child s rtns).2, Ev.evRoutine (Child s rtns).2,
           Ev.evStop (Child s rtns).2, Ev.evWait (Child s rtns).2])
    ∧ (∀ i, (Child s rtns).2 = some i → i < s2.nodes.length →
        doneOf (Stop s2 (Child s rtns).2) i = true) := by
  constructor
  · simp only [Svc.Start]
    rw [hidle]
    show (match (svc.start (Child s rtns).1 (Child s rtns).2).2 with
      | none =>
        (some { svc with routines := (Child s rtns).2 },
          (svc.start (Child s rtns).1 (Child s rtns).2).1, none,
          [Ev.evChild (Child s rtns).2, Ev.evRoutine (Child s rtns).2])
      | some e2 =>
        (some svc,
          Stop (svc.start (Child s rtns).1 (Child s rtns).2).1 (Child s rtns).2,
          some e2,
          [Ev.evChild (Child s rtns).2, Ev.evRoutine (Child s rtns).2,
           Ev.evStop (Child s rtns).2, Ev.evWait (Child s rtns).2])) = _
    rw [hrun]
  · intro i hc hlen
    rw [hc]
    obtain ⟨st, hst⟩ := node?_of_lt s2 hlen
    exact doneOf_Stop_self s2 hst

/-- Witness for C8 at the concrete failing service `svcFailing`. -/
theorem service_start_failure_cleanup_witness :
    Svc.Start (some svcFailing) sysR (some 0)
      = (some svcFailing,
          Stop (Child sysR (some 0)).1 (Child sysR (some 0)).2,
          some (SvcError.other "boom"),
          [Ev.evChild (Child sysR (some 0)).2, Ev.evRoutine (Child sysR (some 0)).2,
           Ev.evStop (Child sysR (some 0)).2, Ev.evWait (Child sysR (some 0)).2]) :=
  (service_start_failure_cleanup svcFailing sysR (some 0)
    (Child sysR (some 0)).1 (SvcError.other "boom") rfl rfl).1

/-- C9: `NewService` with an absent start routine installs a stub that
unconditionally fails with the NilArgument("start") condition, so `Start`
on such a service (which is Idle) always returns that error — it is a
total, safe operation. -/
theorem service_nil_start_stub (s : Sys) (rtns : Option Nat) :
    (NewService none).start s rtns = (s, some (SvcError.nilArgument "start"))
    ∧ (Svc.Start (some (NewService none)) s rtns).2.2.1
        = some (SvcError.nilArgument "start")
    ∧ (NewService none).routines = none :=
  ⟨rfl, rfl, rfl⟩

/-- C10: `Stop` on an absent (nil) service is a silent no-op — it returns
normally, changes nothing, performs no node calls and (having no error
result at all) surfaces no error condition — while `Start` on an absent
service is the operation that reports NilReceiver. -/
theorem service_stop_nil_noop (s : Sys) (rtns : Option Nat) :
    Svc.Stop none s = (none, s, [])
    ∧ Svc.Start none s rtns = (none, s, some SvcError.nilReceiver, []) :=
  ⟨rfl, rfl⟩

end Routines
